import Mathlib

/-
Verification development for the dcompass DNS routing core.

The embedding covers:
  * the dmatcher domain trie (src/dmatcher/src/domain.rs),
  * the response cache (src/droute/src/router/upstreams/upstream/resp_cache.rs),
  * the routing table: validation traversal, construction, and the routing
    loop (src/droute/src/router/table/mod.rs), and
  * the router boundary (src/droute/src/router/mod.rs).

Rust strings are modelled as `String`/`List Char`; `HashMap`s as association
lists; `Instant`/`Duration` as natural numbers of seconds; recursion that the
Rust side bounds dynamically (the validation traversal, the routing loop) is
modelled with an explicit fuel parameter together with theorems showing that
the fuel used by the embedding is always sufficient.
-/

namespace DC

/-! ### Association-list helpers (model of the HashMap operations used by the source) -/

def alookup {α β : Type} [DecidableEq α] (k : α) : List (α × β) → Option β
  | [] => none
  | (a, b) :: t => if a = k then some b else alookup k t

def aupdate {α β : Type} [DecidableEq α] (k : α) (v : β) : List (α × β) → List (α × β)
  | [] => [(k, v)]
  | (a, b) :: t => if a = k then (a, v) :: t else (a, b) :: aupdate k v t

def amodify {α β : Type} [DecidableEq α] (k : α) (f : β → β) : List (α × β) → List (α × β)
  | [] => []
  | (a, b) :: t => if a = k then (a, f b) :: t else (a, b) :: amodify k f t

theorem alookup_aupdate_self {α β : Type} [DecidableEq α] (k : α) (v : β) :
    ∀ l : List (α × β), alookup k (aupdate k v l) = some v := by
  intro l
  induction l with
  | nil => simp [aupdate, alookup]
  | cons hd tl ih =>
    obtain ⟨a, b⟩ := hd
    by_cases h : a = k
    · simp [aupdate, h, alookup]
    · simp [aupdate, h, alookup, ih]

theorem alookup_aupdate_ne {α β : Type} [DecidableEq α] (k k' : α) (v : β) (h : k' ≠ k) :
    ∀ l : List (α × β), alookup k' (aupdate k v l) = alookup k' l := by
  intro l
  induction l with
  | nil => simp [aupdate, alookup, Ne.symm h]
  | cons hd tl ih =>
    obtain ⟨a, b⟩ := hd
    by_cases ha : a = k
    · subst ha
      simp [aupdate, alookup, Ne.symm h]
    · simp [aupdate, ha, alookup, ih]

theorem aupdate_self_eq {α β : Type} [DecidableEq α] (k : α) (v : β) :
    ∀ l : List (α × β), alookup k l = some v → aupdate k v l = l := by
  intro l
  induction l with
  | nil => simp [alookup]
  | cons hd tl ih =>
    obtain ⟨a, b⟩ := hd
    by_cases ha : a = k
    · subst ha
      intro h
      simp [alookup] at h
      simp [aupdate, h]
    · intro h
      simp [alookup, ha] at h
      simp [aupdate, ha, ih h]

theorem aupdate_ne_nil {α β : Type} [DecidableEq α] (k : α) (v : β) (l : List (α × β)) :
    aupdate k v l ≠ [] := by
  cases l with
  | nil => simp [aupdate]
  | cons hd tl =>
    obtain ⟨a, b⟩ := hd
    by_cases ha : a = k <;> simp [aupdate, ha]

/-! ### The dmatcher domain trie (src/dmatcher/src/domain.rs)

`LevelNode` is the trie node: a map from labels to child nodes.  Label
keys are modelled as `List Char` (the Rust side stores `Arc<str>` slices of
the input). -/

inductive LevelNode : Type where
  | node : List (List Char × LevelNode) → LevelNode

def LevelNode.children : LevelNode → List (List Char × LevelNode)
  | .node m => m

/-- Character validity check from `Domain::insert`: ASCII alphabetic, ASCII
digit, `-` or `.` (all other inputs are silently ignored). -/
def validChar (c : Char) : Bool :=
  c.isAlpha || c.isDigit || c = '-' || c = '.'

/-- Model of Rust `str::split('.')`: splits a character list at every dot,
keeping empty segments (exactly like the `split` iterator). -/
def splitOnDot : List Char → List (List Char)
  | [] => [[]]
  | c :: cs =>
    if c = '.' then [] :: splitOnDot cs
    else
      match splitOnDot cs with
      | [] => [[c]]
      | h :: t => (c :: h) :: t

/-- `split('.')` followed by dropping empty segments, as both `insert` and
`matches` do. -/
def labels (cs : List Char) : List (List Char) :=
  (splitOnDot cs).filter (fun l => !l.isEmpty)

/-- The walk/create loop of `Domain::insert`: follow each label, creating
fresh nodes via `entry(..).or_insert_with(LevelNode::new)`. -/
def insertPath : LevelNode → List (List Char) → LevelNode
  | n, [] => n
  | .node m, lv :: rest =>
    .node (aupdate lv (insertPath ((alookup lv m).getD (.node [])) rest) m)

/-- The matching loop of `Domain::matches`: break (returning true) at a node
with no children, fail on a missing child, succeed when the labels run out. -/
def matchPath : LevelNode → List (List Char) → Bool
  | _, [] => true
  | .node m, lv :: rest =>
    if m.isEmpty then true
    else
      match alookup lv m with
      | some nxt => matchPath nxt rest
      | none => false

/-- Pure lookup walk (no early break); a proof-side helper used to analyse
the trie built by `insertPath`. -/
def walkPath : LevelNode → List (List Char) → Option LevelNode
  | n, [] => some n
  | .node m, lv :: rest =>
    match alookup lv m with
    | some nxt => walkPath nxt rest
    | none => none

structure Domain : Type where
  root : LevelNode

/-- `Domain::new`. -/
def Domain.new : Domain := ⟨.node []⟩

/-- `Domain::insert`: reject inputs with a character outside
`[A-Za-z0-9\-.]`, otherwise split on `.`, drop empty labels, reverse, and
walk/create nodes. -/
def Domain.insert (d : Domain) (s : String) : Domain :=
  if s.data.all validChar then ⟨insertPath d.root ((labels s.data).reverse)⟩ else d

/-- `Domain::matches`: split on `.`, drop empty labels, reverse, and walk. -/
def Domain.matches (d : Domain) (s : String) : Bool :=
  matchPath d.root ((labels s.data).reverse)

/-- C5 (amended): on a freshly constructed trie the root has no children, so
the very first loop iteration (or the empty loop) returns `true`: `matches`
is `true` for every name, not only for names with zero non-empty labels. -/
theorem c5_fresh_trie_matches_everything (s : String) :
    Domain.new.matches s = true := by
  show matchPath (.node []) ((labels s.data).reverse) = true
  cases h : (labels s.data).reverse with
  | nil => simp [matchPath]
  | cons l t => simp [matchPath]

/-- C5 counterexample: the name `"a"` has one non-empty label, yet a fresh
trie's `matches` returns `true` on it, contradicting the claim that a fresh
trie matches only names with zero non-empty labels. -/
theorem c5_counterexample :
    Domain.new.matches "a" = true ∧ labels ("a" : String).data ≠ [] := by
  constructor
  · decide
  · decide

/-- C9: `Domain::insert` with any character outside `[A-Za-z0-9\-.]` leaves
the trie exactly unchanged, hence every later `matches` answer is unchanged. -/
theorem c9_invalid_insert_is_noop (t : Domain) (s : String)
    (h : ∃ c ∈ s.data, validChar c = false) :
    Domain.insert t s = t ∧
      ∀ q : String, (Domain.insert t s).matches q = t.matches q := by
  have hall : s.data.all validChar = false := by
    rcases h with ⟨c, hc, hv⟩
    cases hA : s.data.all validChar with
    | false => rfl
    | true =>
      have := List.all_eq_true.mp hA c hc
      rw [hv] at this
      cases this
  have hins : Domain.insert t s = t := by
    simp [Domain.insert, hall]
  exact ⟨hins, fun q => by rw [hins]⟩

/-- C9 witness at a concrete input: `"# apple.com"` contains `'#'` and `' '`,
both invalid, so inserting it into the fresh trie is a no-op. -/
theorem c9_witness :
    (∃ c ∈ ("# apple.com" : String).data, validChar c = false) ∧
      (Domain.insert Domain.new "# apple.com" = Domain.new ∧
        ∀ q : String,
          (Domain.insert Domain.new "# apple.com").matches q = Domain.new.matches q) :=
  ⟨by decide, c9_invalid_insert_is_noop Domain.new "# apple.com" (by decide)⟩

/-! ### Properties of the label splitter -/

theorem splitOnDot_ne_nil (cs : List Char) : splitOnDot cs ≠ [] := by
  induction cs with
  | nil => simp [splitOnDot]
  | cons c cs ih =>
    by_cases h : c = '.'
    · simp [splitOnDot, h]
    · cases hs : splitOnDot cs with
      | nil => exact absurd hs ih
      | cons a b => simp [splitOnDot, h, hs]

theorem no_dot_of_mem_splitOnDot :
    ∀ (cs : List Char) (l : List Char), l ∈ splitOnDot cs → '.' ∉ l := by
  intro cs
  induction cs with
  | nil =>
    intro l h
    simp [splitOnDot] at h
    simp [h]
  | cons c cs ih =>
    intro l h
    by_cases hc : c = '.'
    · simp [splitOnDot, hc] at h
      rcases h with h | h
      · simp [h]
      · exact ih l h
    · cases hs : splitOnDot cs with
      | nil => exact absurd hs (splitOnDot_ne_nil cs)
      | cons a b =>
        simp [splitOnDot, hc, hs] at h
        rcases h with h | h
        · subst h
          intro hm
          rcases List.mem_cons.mp hm with hm | hm
          · exact hc hm.symm
          · exact ih a (by rw [hs]; exact List.mem_cons_self a b) hm
        · exact ih l (by rw [hs]; exact List.mem_cons_of_mem a h)

theorem mem_labels_ne_nil {cs l : List Char} (h : l ∈ labels cs) : l ≠ [] := by
  have := List.of_mem_filter h
  simpa [List.isEmpty_iff] using this

theorem mem_labels_no_dot {cs l : List Char} (h : l ∈ labels cs) : '.' ∉ l :=
  no_dot_of_mem_splitOnDot cs l (List.mem_of_mem_filter h)

theorem splitOnDot_append_dot (cs : List Char) :
    splitOnDot (cs ++ ['.']) = splitOnDot cs ++ [[]] := by
  induction cs with
  | nil => simp [splitOnDot]
  | cons c cs ih =>
    by_cases hc : c = '.'
    · simp [splitOnDot, hc, ih]
    · cases hs : splitOnDot cs with
      | nil => exact absurd hs (splitOnDot_ne_nil cs)
      | cons a b =>
        rw [hs] at ih
        simp [splitOnDot, hc, ih, hs]

theorem labels_append_dot (cs : List Char) : labels (cs ++ ['.']) = labels cs := by
  simp [labels, splitOnDot_append_dot, List.filter_append]

theorem splitOnDot_no_dot_append (cs a : List Char) (b : List (List Char))
    (h : splitOnDot cs = a :: b) :
    ∀ p : List Char, '.' ∉ p → splitOnDot (p ++ cs) = (p ++ a) :: b := by
  intro p
  induction p with
  | nil => intro _; simpa using h
  | cons c p ih =>
    intro hp
    have hc : ¬ c = '.' := by
      intro hc
      exact hp (by simp [hc])
    have hp' : '.' ∉ p := by
      intro hm
      exact hp (by simp [hm])
    have hrec := ih hp'
    simp [splitOnDot, hc, hrec]

/-- Joins label lists with dots; this is how the names in the suffix-match
property are assembled from labels. -/
def joinDots : List (List Char) → List Char
  | [] => []
  | [p] => p
  | p :: ps => p ++ '.' :: joinDots ps

theorem labels_joinDots :
    ∀ parts : List (List Char), (∀ p ∈ parts, p ≠ [] ∧ '.' ∉ p) →
      labels (joinDots parts) = parts := by
  intro parts
  induction parts with
  | nil => intro _; simp [joinDots, labels, splitOnDot]
  | cons p ps ih =>
    intro h
    obtain ⟨hpne, hpd⟩ := h p (by simp)
    cases ps with
    | nil =>
      have h1 : splitOnDot (p ++ []) = (p ++ []) :: [] :=
        splitOnDot_no_dot_append [] [] [] (by simp [splitOnDot]) p hpd
      simp at h1
      simp [joinDots, labels, h1, List.isEmpty_iff, hpne]
    | cons q qs =>
      have hrest : ∀ r ∈ q :: qs, r ≠ [] ∧ '.' ∉ r := fun r hr => h r (by simp [hr])
      have ihr := ih hrest
      cases hs : splitOnDot (joinDots (q :: qs)) with
      | nil => exact absurd hs (splitOnDot_ne_nil _)
      | cons a b =>
        have hsplit : splitOnDot ('.' :: joinDots (q :: qs)) = [] :: a :: b := by
          simp [splitOnDot, hs]
        have h2 := splitOnDot_no_dot_append ('.' :: joinDots (q :: qs)) [] (a :: b) hsplit p hpd
        have hjd : joinDots (p :: q :: qs) = p ++ '.' :: joinDots (q :: qs) := rfl
        rw [labels, hjd, h2]
        rw [labels, hs] at ihr
        simp [List.isEmpty_iff, hpne, ihr]

/-! ### Structural lemmas about the trie walk and insertion -/

theorem rev_pfx {α : Type} (a b : List α) : a.reverse <+: b.reverse ↔ a <:+ b := by
  constructor
  · rintro ⟨u, hu⟩
    refine ⟨u.reverse, ?_⟩
    have h2 := congrArg List.reverse hu
    simpa [List.reverse_append] using h2
  · rintro ⟨u, hu⟩
    refine ⟨u.reverse, ?_⟩
    rw [← hu]
    simp [List.reverse_append]

theorem walkPath_nil (t : LevelNode) : walkPath t [] = some t := by
  cases t; rfl

theorem walkPath_cons_some {m : List (List Char × LevelNode)} {lv : List Char}
    {c : LevelNode} (rest : List (List Char)) (h : alookup lv m = some c) :
    walkPath (.node m) (lv :: rest) = walkPath c rest := by
  simp [walkPath, h]

theorem walkPath_cons_none {m : List (List Char × LevelNode)} {lv : List Char}
    (rest : List (List Char)) (h : alookup lv m = none) :
    walkPath (.node m) (lv :: rest) = none := by
  simp [walkPath, h]

theorem matchPath_nil (t : LevelNode) : matchPath t [] = true := by
  cases t; rfl

theorem insertPath_cons (m : List (List Char × LevelNode)) (lv : List Char)
    (rest : List (List Char)) :
    insertPath (.node m) (lv :: rest)
      = .node (aupdate lv (insertPath ((alookup lv m).getD (.node [])) rest) m) := rfl

theorem walk_insert_self :
    ∀ (P : List (List Char)) (t : LevelNode),
      walkPath (insertPath t P) P = some ((walkPath t P).getD (.node [])) := by
  intro P
  induction P with
  | nil => intro t; simp [insertPath, walkPath_nil]
  | cons p P ih =>
    intro t
    obtain ⟨m⟩ := t
    rw [insertPath_cons, walkPath_cons_some P (alookup_aupdate_self p _ m)]
    cases hc : alookup p m with
    | some c =>
      simp only [Option.getD_some]
      rw [ih c, walkPath_cons_some P hc]
    | none =>
      simp only [Option.getD_none]
      rw [ih (.node []), walkPath_cons_none P hc]
      cases P with
      | nil => rw [walkPath_nil]; rfl
      | cons q Q => rw [walkPath_cons_none Q (by simp [alookup])]

theorem insertPath_nil (t : LevelNode) : insertPath t [] = t := by
  cases t; rfl

theorem walk_chain_not_pfx :
    ∀ (R P : List (List Char)), ¬ (P <+: R) →
      walkPath (insertPath (.node []) R) P = none := by
  intro R
  induction R with
  | nil =>
    intro P h
    cases P with
    | nil => exact absurd List.prefix_rfl h
    | cons p P' =>
      rw [insertPath_nil]
      exact walkPath_cons_none P' (by simp [alookup])
  | cons r R' ih =>
    intro P h
    cases P with
    | nil => exact absurd List.nil_prefix h
    | cons p P' =>
      rw [insertPath_cons]
      by_cases hpr : p = r
      · subst hpr
        rw [walkPath_cons_some P' (alookup_aupdate_self p _ [])]
        have hP' : ¬ (P' <+: R') := by
          intro hh
          exact h (List.cons_prefix_cons.mpr ⟨rfl, hh⟩)
        exact ih P' hP'
      · refine walkPath_cons_none P' ?_
        rw [alookup_aupdate_ne r p _ hpr]
        rfl

theorem walk_insert_not_pfx :
    ∀ (P : List (List Char)) (t : LevelNode) (R : List (List Char)), ¬ (P <+: R) →
      walkPath (insertPath t R) P = walkPath t P := by
  intro P
  induction P with
  | nil => intro t R h; exact absurd List.nil_prefix h
  | cons p P' ih =>
    intro t R h
    cases R with
    | nil => rw [insertPath_nil]
    | cons r R' =>
      obtain ⟨m⟩ := t
      rw [insertPath_cons]
      by_cases hpr : p = r
      · subst hpr
        rw [walkPath_cons_some P' (alookup_aupdate_self p _ m)]
        have hP' : ¬ (P' <+: R') := by
          intro hh
          exact h (List.cons_prefix_cons.mpr ⟨rfl, hh⟩)
        cases hc : alookup p m with
        | some c =>
          simp only [Option.getD_some]
          rw [ih c R' hP', walkPath_cons_some P' hc]
        | none =>
          simp only [Option.getD_none]
          rw [walk_chain_not_pfx R' P' hP', walkPath_cons_none P' hc]
      · cases hc : alookup p m with
        | some c =>
          rw [walkPath_cons_some P' (by rw [alookup_aupdate_ne r p _ hpr]; exact hc),
            walkPath_cons_some P' hc]
        | none =>
          rw [walkPath_cons_none P' (by rw [alookup_aupdate_ne r p _ hpr]; exact hc),
            walkPath_cons_none P' hc]

theorem walk_insert_strict_pfx :
    ∀ (P : List (List Char)) (t : LevelNode) (R : List (List Char)) (x : List Char),
      (P ++ [x]) <+: R →
      ∃ n, walkPath (insertPath t R) P = some n ∧ n.children ≠ [] := by
  intro P
  induction P with
  | nil =>
    intro t R x h
    cases R with
    | nil => simp at h
    | cons r R' =>
      obtain ⟨m⟩ := t
      refine ⟨.node (aupdate r (insertPath ((alookup r m).getD (.node [])) R') m), rfl, ?_⟩
      simp [LevelNode.children]
      exact aupdate_ne_nil _ _ _
  | cons p P' ih =>
    intro t R x h
    cases R with
    | nil => simp at h
    | cons r R' =>
      obtain ⟨hpr, hrest⟩ := List.cons_prefix_cons.mp h
      subst hpr
      obtain ⟨m⟩ := t
      show ∃ n, walkPath (.node (aupdate p _ m)) (p :: P') = some n ∧ _
      rw [walkPath, alookup_aupdate_self]
      exact ih _ R' x hrest

theorem pfx_cases {α : Type} {P R : List α} (h : P <+: R) :
    P = R ∨ ∃ x, (P ++ [x]) <+: R := by
  obtain ⟨u, hu⟩ := h
  cases u with
  | nil => left; simpa using hu
  | cons x u' =>
    right
    exact ⟨x, u', by rw [← hu]; simp⟩

theorem walk_insert_keeps_childful (t : LevelNode) (P R : List (List Char)) (n : LevelNode)
    (hw : walkPath t P = some n) (hc : n.children ≠ []) :
    ∃ n', walkPath (insertPath t R) P = some n' ∧ n'.children ≠ [] := by
  by_cases hpre : P <+: R
  · rcases pfx_cases hpre with heq | ⟨x, hx⟩
    · subst heq
      refine ⟨n, ?_, hc⟩
      rw [walk_insert_self P t, hw]
      rfl
    · exact walk_insert_strict_pfx P t R x hx
  · refine ⟨n, ?_, hc⟩
    rw [walk_insert_not_pfx P t R hpre]
    exact hw

theorem matchPath_of_childless :
    ∀ (P : List (List Char)) (t : LevelNode) (Q : List (List Char)) (n : LevelNode),
      walkPath t P = some n → n.children = [] → matchPath t (P ++ Q) = true := by
  intro P
  induction P with
  | nil =>
    intro t Q n hw hc
    simp [walkPath] at hw
    subst hw
    cases Q with
    | nil => simp [matchPath]
    | cons q Q' =>
      obtain ⟨m⟩ := t
      simp [LevelNode.children] at hc
      simp [matchPath, hc]
  | cons p P' ih =>
    intro t Q n hw hc
    obtain ⟨m⟩ := t
    rw [walkPath] at hw
    cases hl : alookup p m with
    | none => rw [hl] at hw; cases hw
    | some c =>
      rw [hl] at hw
      show matchPath (.node m) (p :: (P' ++ Q)) = true
      rw [matchPath]
      by_cases hm : m.isEmpty
      · simp [hm]
      · simp [hm, hl]
        exact ih c Q n hw hc

theorem matchPath_true_elim :
    ∀ (X : List (List Char)) (t : LevelNode), matchPath t X = true →
      ∃ P Q n, X = P ++ Q ∧ walkPath t P = some n ∧ (Q = [] ∨ n.children = []) := by
  intro X
  induction X with
  | nil => intro t _; exact ⟨[], [], t, rfl, walkPath_nil t, Or.inl rfl⟩
  | cons x X' ih =>
    intro t h
    obtain ⟨m⟩ := t
    rw [matchPath] at h
    by_cases hm : m.isEmpty
    · refine ⟨[], x :: X', .node m, rfl, rfl, Or.inr ?_⟩
      simpa [LevelNode.children, List.isEmpty_iff] using hm
    · rw [if_neg hm] at h
      cases hl : alookup x m with
      | none => rw [hl] at h; cases h
      | some c =>
        rw [hl] at h
        obtain ⟨P', Q', n, hX', hw, hQ⟩ := ih c h
        refine ⟨x :: P', Q', n, by rw [hX', List.cons_append], ?_, hQ⟩
        rw [walkPath_cons_some P' hl]
        exact hw

/-! ### Lemmas about tries built by a sequence of inserts -/

theorem insert_root_valid (t : Domain) (s : String) (h : s.data.all validChar = true) :
    (Domain.insert t s).root = insertPath t.root ((labels s.data).reverse) := by
  simp [Domain.insert, h]

theorem insert_invalid (t : Domain) (s : String) (h : s.data.all validChar = false) :
    Domain.insert t s = t := by
  simp [Domain.insert, h]

/-- A quiet path: either absent from the trie or ending at a childless node. -/
def QuietAt (t : Domain) (P : List (List Char)) : Prop :=
  walkPath t.root P = none ∨ ∃ n, walkPath t.root P = some n ∧ n.children = []

/-- A terminal path: present and ending at a childless node. -/
def TermAt (t : Domain) (P : List (List Char)) : Prop :=
  ∃ n, walkPath t.root P = some n ∧ n.children = []

/-- A childful path: present and ending at a node with children. -/
def ChildfulAt (t : Domain) (P : List (List Char)) : Prop :=
  ∃ n, walkPath t.root P = some n ∧ n.children ≠ []

theorem insert_keeps_quiet (t : Domain) (s : String) (P : List (List Char))
    (hnp : s.data.all validChar = true →
      ¬(P <+: (labels s.data).reverse ∧ P ≠ (labels s.data).reverse))
    (hq : QuietAt t P) : QuietAt (Domain.insert t s) P := by
  cases hv : s.data.all validChar with
  | false => rw [insert_invalid t s hv]; exact hq
  | true =>
    have hroot := insert_root_valid t s hv
    by_cases hpre : P <+: (labels s.data).reverse
    · have heq : P = (labels s.data).reverse := by
        by_contra hne
        exact hnp hv ⟨hpre, hne⟩
      right
      rw [QuietAt, heq] at hq
      rw [heq]
      rcases hq with hq | ⟨n, hw, hc⟩
      · exact ⟨.node [], by rw [hroot, walk_insert_self _ t.root, hq]; rfl, rfl⟩
      · exact ⟨n, by rw [hroot, walk_insert_self _ t.root, hw]; rfl, hc⟩
    · rw [QuietAt, hroot, walk_insert_not_pfx P t.root _ hpre]
      exact hq

theorem insert_keeps_term (t : Domain) (s : String) (P : List (List Char))
    (hnp : s.data.all validChar = true →
      ¬(P <+: (labels s.data).reverse ∧ P ≠ (labels s.data).reverse))
    (hq : TermAt t P) : TermAt (Domain.insert t s) P := by
  cases hv : s.data.all validChar with
  | false => rw [insert_invalid t s hv]; exact hq
  | true =>
    have hroot := insert_root_valid t s hv
    obtain ⟨n, hw, hc⟩ := hq
    by_cases hpre : P <+: (labels s.data).reverse
    · have heq : P = (labels s.data).reverse := by
        by_contra hne
        exact hnp hv ⟨hpre, hne⟩
      rw [heq] at hw
      rw [heq]
      exact ⟨n, by rw [hroot, walk_insert_self _ t.root, hw]; rfl, hc⟩
    · refine ⟨n, ?_, hc⟩
      rw [hroot, walk_insert_not_pfx P t.root _ hpre]
      exact hw

theorem insert_creates_term (t : Domain) (d : String) (hv : d.data.all validChar = true)
    (hq : QuietAt t ((labels d.data).reverse)) :
    TermAt (Domain.insert t d) ((labels d.data).reverse) := by
  have hroot := insert_root_valid t d hv
  rw [QuietAt] at hq
  rcases hq with hq | ⟨n, hw, hc⟩
  · exact ⟨.node [], by rw [hroot, walk_insert_self _ t.root, hq]; rfl, rfl⟩
  · exact ⟨n, by rw [hroot, walk_insert_self _ t.root, hw]; rfl, hc⟩

theorem fold_keeps_quiet (P : List (List Char)) :
    ∀ (ds : List String) (t : Domain),
      (∀ s ∈ ds, s.data.all validChar = true →
        ¬(P <+: (labels s.data).reverse ∧ P ≠ (labels s.data).reverse)) →
      QuietAt t P → QuietAt (ds.foldl Domain.insert t) P := by
  intro ds
  induction ds with
  | nil => intro t _ hq; exact hq
  | cons s ds ih =>
    intro t h hq
    rw [List.foldl_cons]
    exact ih (Domain.insert t s) (fun x hx => h x (List.mem_cons_of_mem s hx))
      (insert_keeps_quiet t s P (h s (List.mem_cons_self s ds)) hq)

theorem fold_keeps_term (P : List (List Char)) :
    ∀ (ds : List String) (t : Domain),
      (∀ s ∈ ds, s.data.all validChar = true →
        ¬(P <+: (labels s.data).reverse ∧ P ≠ (labels s.data).reverse)) →
      TermAt t P → TermAt (ds.foldl Domain.insert t) P := by
  intro ds
  induction ds with
  | nil => intro t _ hq; exact hq
  | cons s ds ih =>
    intro t h hq
    rw [List.foldl_cons]
    exact ih (Domain.insert t s) (fun x hx => h x (List.mem_cons_of_mem s hx))
      (insert_keeps_term t s P (h s (List.mem_cons_self s ds)) hq)

theorem insert_keeps_childful (t : Domain) (s : String) (P : List (List Char))
    (hq : ChildfulAt t P) : ChildfulAt (Domain.insert t s) P := by
  cases hv : s.data.all validChar with
  | false => rw [insert_invalid t s hv]; exact hq
  | true =>
    obtain ⟨n, hw, hc⟩ := hq
    obtain ⟨n', hw', hc'⟩ := walk_insert_keeps_childful t.root P _ n hw hc
    exact ⟨n', by rw [insert_root_valid t s hv]; exact hw', hc'⟩

theorem insert_creates_childful (t : Domain) (s : String) (P : List (List Char))
    (x : List Char) (hv : s.data.all validChar = true)
    (hx : (P ++ [x]) <+: (labels s.data).reverse) :
    ChildfulAt (Domain.insert t s) P := by
  obtain ⟨n, hw, hc⟩ := walk_insert_strict_pfx P t.root _ x hx
  exact ⟨n, by rw [insert_root_valid t s hv]; exact hw, hc⟩

theorem fold_keeps_childful (P : List (List Char)) :
    ∀ (ds : List String) (t : Domain),
      ChildfulAt t P → ChildfulAt (ds.foldl Domain.insert t) P := by
  intro ds
  induction ds with
  | nil => intro t hq; exact hq
  | cons s ds ih =>
    intro t hq
    rw [List.foldl_cons]
    exact ih (Domain.insert t s) (insert_keeps_childful t s P hq)

theorem fold_walk_src (P : List (List Char)) :
    ∀ (ds : List String) (t : Domain),
      walkPath (ds.foldl Domain.insert t).root P ≠ none →
      walkPath t.root P ≠ none ∨
        ∃ s ∈ ds, s.data.all validChar = true ∧ P <+: (labels s.data).reverse := by
  intro ds
  induction ds with
  | nil => intro t h; exact Or.inl h
  | cons s ds ih =>
    intro t h
    rw [List.foldl_cons] at h
    rcases ih (Domain.insert t s) h with h1 | ⟨x, hx, hxv, hxp⟩
    · cases hv : s.data.all validChar with
      | false =>
        rw [insert_invalid t s hv] at h1
        exact Or.inl h1
      | true =>
        by_cases hpre : P <+: (labels s.data).reverse
        · exact Or.inr ⟨s, List.mem_cons_self s ds, hv, hpre⟩
        · rw [insert_root_valid t s hv, walk_insert_not_pfx P t.root _ hpre] at h1
          exact Or.inl h1
    · exact Or.inr ⟨x, List.mem_cons_of_mem s hx, hxv, hxp⟩

theorem fresh_root_children : Domain.new.root.children = [] := rfl

theorem walk_fresh_ne_none {P : List (List Char)}
    (h : walkPath Domain.new.root P ≠ none) : P = [] := by
  cases P with
  | nil => rfl
  | cons p P' => exact absurd (walkPath_cons_none P' (by simp [alookup])) h

theorem matches_def (t : Domain) (s : String) :
    t.matches s = matchPath t.root ((labels s.data).reverse) := rfl

theorem quiet_fresh (P : List (List Char)) : QuietAt Domain.new P := by
  cases P with
  | nil => exact Or.inr ⟨.node [], walkPath_nil _, rfl⟩
  | cons p P' => exact Or.inl (walkPath_cons_none P' (by simp [alookup]))

theorem insert_makes_rootful (t : Domain) (s : String)
    (hv : s.data.all validChar = true) (hl : labels s.data ≠ []) :
    (Domain.insert t s).root.children ≠ [] := by
  rw [insert_root_valid t s hv]
  cases hr : (labels s.data).reverse with
  | nil => exact absurd (List.reverse_eq_nil_iff.mp hr) hl
  | cons l L =>
    obtain ⟨m⟩ := t.root
    rw [insertPath_cons]
    simpa [LevelNode.children] using aupdate_ne_nil l _ m

theorem insert_keeps_rootful (t : Domain) (s : String)
    (h : t.root.children ≠ []) : (Domain.insert t s).root.children ≠ [] := by
  cases hv : s.data.all validChar with
  | false => rw [insert_invalid t s hv]; exact h
  | true =>
    rw [insert_root_valid t s hv]
    cases hr : (labels s.data).reverse with
    | nil => rw [insertPath_nil]; exact h
    | cons l L =>
      obtain ⟨m⟩ := t.root
      rw [insertPath_cons]
      simpa [LevelNode.children] using aupdate_ne_nil l _ m

theorem fold_keeps_rootful :
    ∀ (ds : List String) (t : Domain), t.root.children ≠ [] →
      (ds.foldl Domain.insert t).root.children ≠ [] := by
  intro ds
  induction ds with
  | nil => intro t h; exact h
  | cons s ds ih =>
    intro t h
    rw [List.foldl_cons]
    exact ih (Domain.insert t s) (insert_keeps_rootful t s h)

/-- C2 (amended): for a domain `d` that passes the validity check and is one
of the inserted inputs, provided no other (valid) inserted domain has `d`'s
label sequence as a proper suffix, every name made of extra non-empty,
dot-free labels followed by `d`'s labels matches, with or without a trailing
dot. -/
theorem c2_suffix_match (ds : List String) (d : String) (ps : List (List Char))
    (hmem : d ∈ ds) (hval : d.data.all validChar = true)
    (hnoext : ∀ s ∈ ds, s.data.all validChar = true →
      ¬(labels d.data <:+ labels s.data ∧ labels d.data ≠ labels s.data))
    (hps : ∀ p ∈ ps, p ≠ [] ∧ '.' ∉ p) :
    (ds.foldl Domain.insert Domain.new).matches
        (String.mk (joinDots (ps ++ labels d.data))) = true
    ∧ (ds.foldl Domain.insert Domain.new).matches
        (String.mk (joinDots (ps ++ labels d.data) ++ ['.'])) = true := by
  have hparts : ∀ p ∈ ps ++ labels d.data, p ≠ [] ∧ '.' ∉ p := by
    intro p hp
    rcases List.mem_append.mp hp with hp | hp
    · exact hps p hp
    · exact ⟨mem_labels_ne_nil hp, mem_labels_no_dot hp⟩
  have hlbl : labels (joinDots (ps ++ labels d.data)) = ps ++ labels d.data :=
    labels_joinDots _ hparts
  have hnoextP : ∀ s ∈ ds, s.data.all validChar = true →
      ¬((labels d.data).reverse <+: (labels s.data).reverse ∧
        (labels d.data).reverse ≠ (labels s.data).reverse) := by
    rintro s hs hv ⟨hpre, hne⟩
    exact hnoext s hs hv
      ⟨(rev_pfx _ _).mp hpre, fun he => hne (by rw [he])⟩
  obtain ⟨l1, l2, hsplit⟩ := List.append_of_mem hmem
  have hq1 : QuietAt (l1.foldl Domain.insert Domain.new) ((labels d.data).reverse) := by
    refine fold_keeps_quiet _ l1 Domain.new ?_ (quiet_fresh _)
    intro s hs
    exact hnoextP s (by rw [hsplit]; exact List.mem_append_left _ hs)
  have hterm : TermAt (ds.foldl Domain.insert Domain.new) ((labels d.data).reverse) := by
    rw [hsplit, List.foldl_append, List.foldl_cons]
    refine fold_keeps_term _ l2 _ ?_ (insert_creates_term _ d hval hq1)
    intro s hs
    refine hnoextP s ?_
    rw [hsplit]
    exact List.mem_append_right _ (List.mem_cons_of_mem d hs)
  obtain ⟨n, hw, hc⟩ := hterm
  constructor
  · rw [matches_def]
    rw [show (String.mk (joinDots (ps ++ labels d.data))).data
        = joinDots (ps ++ labels d.data) from rfl]
    rw [hlbl, List.reverse_append]
    exact matchPath_of_childless _ _ ps.reverse n hw hc
  · rw [matches_def]
    rw [show (String.mk (joinDots (ps ++ labels d.data) ++ ['.'])).data
        = joinDots (ps ++ labels d.data) ++ ['.'] from rfl]
    rw [labels_append_dot, hlbl, List.reverse_append]
    exact matchPath_of_childless _ _ ps.reverse n hw hc

/-- C2 witness: `apple.com` inserted alone; `store.apple.com` and
`store.apple.com.` both match. -/
theorem c2_witness :
    (("apple.com" : String) ∈ ["apple.com"]
      ∧ ("apple.com" : String).data.all validChar = true
      ∧ (∀ s ∈ ["apple.com"], s.data.all validChar = true →
          ¬(labels ("apple.com" : String).data <:+ labels s.data ∧
            labels ("apple.com" : String).data ≠ labels s.data))
      ∧ (∀ p ∈ [String.data "store"], p ≠ [] ∧ '.' ∉ p))
    ∧ ((["apple.com"].foldl Domain.insert Domain.new).matches
          (String.mk (joinDots ([String.data "store"] ++ labels ("apple.com" : String).data))) = true
      ∧ (["apple.com"].foldl Domain.insert Domain.new).matches
          (String.mk (joinDots ([String.data "store"] ++ labels ("apple.com" : String).data) ++ ['.'])) = true) :=
  ⟨⟨by decide, by decide, by decide, by decide⟩,
    c2_suffix_match ["apple.com"] "apple.com" [String.data "store"]
      (by decide) (by decide) (by decide) (by decide)⟩

/-- C2 counterexample: the claim as stated fails once another inserted
domain extends the inserted one below: after inserting `www.apple.com` and
then `apple.com`, the name `store.apple.com` (a non-empty-label prefix
`store` on front of the inserted `apple.com`) does not match.  The second
conjunct shows the same name does match when `apple.com` is inserted alone,
and the third shows the claim also fails for an inserted string that is
rejected by the character check (`apple_com`). -/
theorem c2_counterexample :
    ((Domain.new.insert "www.apple.com").insert "apple.com").matches "store.apple.com" = false
    ∧ (Domain.new.insert "apple.com").matches "store.apple.com" = true
    ∧ ((Domain.new.insert "baidu.com").insert "apple_com").matches "x.apple_com" = false := by
  exact ⟨by decide, by decide, by decide⟩

/-- C4 (amended): `matches x` is `false` provided (i) no valid inserted
domain's label sequence is a suffix of `x`'s labels, (ii) `x`'s label
sequence is not a suffix of any valid inserted domain's labels, (iii) at
least one valid inserted domain has a non-empty label sequence, and (iv)
`x` has at least one non-empty label. -/
theorem c4_no_false_match (ds : List String) (x : String)
    (h1 : ∀ s ∈ ds, s.data.all validChar = true → ¬(labels s.data <:+ labels x.data))
    (h2 : ∀ s ∈ ds, s.data.all validChar = true → ¬(labels x.data <:+ labels s.data))
    (h3 : ∃ s ∈ ds, s.data.all validChar = true ∧ labels s.data ≠ [])
    (h4 : labels x.data ≠ []) :
    (ds.foldl Domain.insert Domain.new).matches x = false := by
  cases hm : (ds.foldl Domain.insert Domain.new).matches x with
  | false => rfl
  | true =>
    exfalso
    rw [matches_def] at hm
    obtain ⟨P, Q, n, hXPQ, hw, hQ⟩ := matchPath_true_elim _ _ hm
    have hrootful : (ds.foldl Domain.insert Domain.new).root.children ≠ [] := by
      obtain ⟨s0, hs0, hv0, hl0⟩ := h3
      obtain ⟨A, B, hAB⟩ := List.append_of_mem hs0
      rw [hAB, List.foldl_append, List.foldl_cons]
      exact fold_keeps_rootful B _ (insert_makes_rootful _ s0 hv0 hl0)
    rcases hQ with hQ | hQ
    · subst hQ
      rw [List.append_nil] at hXPQ
      subst hXPQ
      have hne : walkPath (ds.foldl Domain.insert Domain.new).root
          ((labels x.data).reverse) ≠ none := by
        rw [hw]; simp
      rcases fold_walk_src _ ds Domain.new hne with hfresh | ⟨s, hs, hv, hpre⟩
      · exact h4 (List.reverse_eq_nil_iff.mp (walk_fresh_ne_none hfresh))
      · exact h2 s hs hv ((rev_pfx _ _).mp hpre)
    · cases hP : P with
      | nil =>
        subst hP
        rw [walkPath_nil] at hw
        have hn : n = (ds.foldl Domain.insert Domain.new).root := by
          injection hw with hh
          exact hh.symm
        rw [hn] at hQ
        exact hrootful hQ
      | cons p P'' =>
        have hne : walkPath (ds.foldl Domain.insert Domain.new).root P ≠ none := by
          rw [hw]; simp
        rcases fold_walk_src P ds Domain.new hne with hfresh | ⟨s, hs, hv, hpre⟩
        · rw [walk_fresh_ne_none hfresh] at hP
          cases hP
        · rcases pfx_cases hpre with heq | ⟨y, hy⟩
          · have hPX : P <+: (labels x.data).reverse := ⟨Q, hXPQ.symm⟩
            refine h1 s hs hv ?_
            refine (rev_pfx _ _).mp ?_
            rw [← heq]
            exact hPX
          · have hcf : ChildfulAt (ds.foldl Domain.insert Domain.new) P := by
              obtain ⟨A, B, hAB⟩ := List.append_of_mem hs
              rw [hAB, List.foldl_append, List.foldl_cons]
              exact fold_keeps_childful P B _ (insert_creates_childful _ s P y hv hy)
            obtain ⟨n', hw', hc'⟩ := hcf
            rw [hw] at hw'
            injection hw' with hh
            rw [← hh] at hc'
            exact hc' hQ

/-- C4 witness: after inserting `apple.com`, the name `apple.cn` (the spec's
own example) does not match. -/
theorem c4_witness :
    ((∀ s ∈ ["apple.com"], s.data.all validChar = true →
        ¬(labels s.data <:+ labels ("apple.cn" : String).data))
      ∧ (∀ s ∈ ["apple.com"], s.data.all validChar = true →
          ¬(labels ("apple.cn" : String).data <:+ labels s.data))
      ∧ (∃ s ∈ ["apple.com"], s.data.all validChar = true ∧ labels s.data ≠ [])
      ∧ labels ("apple.cn" : String).data ≠ [])
    ∧ (["apple.com"].foldl Domain.insert Domain.new).matches "apple.cn" = false :=
  ⟨⟨by decide, by decide, by decide, by decide⟩,
    c4_no_false_match ["apple.com"] "apple.cn" (by decide) (by decide) (by decide) (by decide)⟩

/-- C4 counterexample: insert only `www.apple.com`; no suffix of
`apple.com`'s labels equals `www.apple.com`'s labels (the only inserted
domain), yet `matches "apple.com"` returns `true` because the walk consumes
every query label while still inside the trie. -/
theorem c4_counterexample :
    (Domain.new.insert "www.apple.com").matches "apple.com" = true
    ∧ ¬(labels ("www.apple.com" : String).data <:+ labels ("apple.com" : String).data) := by
  exact ⟨by decide, by decide⟩

/-! ### DNS messages

Modelled from the spec: the `WireMessage` collaborator contract (spec
section 6) — id, opcode, QR bit, RD bit, rcode, ordered queries, answers
with per-record TTLs.  The concrete wire codec (the `trust_dns` / `domain`
crates) is outside the provided sources and out of the spec's scope. -/

inductive OpCode : Type where
  | query
  | status
  | notify
  | update
deriving DecidableEq

inductive Rcode : Type where
  | noError
  | formErr
  | servFail
  | nxDomain
  | notImp
  | refused
deriving DecidableEq

structure Query : Type where
  name : String
  qtype : Nat
deriving DecidableEq

structure Answer : Type where
  name : String
  ttl : Nat
  rdata : String
deriving DecidableEq

structure Message : Type where
  id : Nat
  opcode : OpCode
  qr : Bool
  rd : Bool
  rcode : Rcode
  queries : List Query
  answers : List Answer
deriving DecidableEq

/-- Modelled from the spec: `Message::new()` of the wire library — id 0,
opcode Query, query-type header, no questions or answers. -/
def Message.new : Message :=
  { id := 0, opcode := .query, qr := false, rd := false, rcode := .noError
    queries := [], answers := [] }

/-- Modelled from the spec: `Message::error_msg(id, op_code, response_code)`
of the wire library — a response carrying the given id, opcode and rcode
with no question or answer sections. -/
def Message.errorMsg (id : Nat) (op : OpCode) (rc : Rcode) : Message :=
  { id := id, opcode := op, qr := true, rd := false, rcode := rc
    queries := [], answers := [] }

/-! ### The response cache (src/droute/src/router/upstreams/upstream/resp_cache.rs)

`Instant` is modelled as a natural number of seconds and passed explicitly
where the source calls `Instant::now()`; `saturating_duration_since` is
truncated natural subtraction.  The LRU container (the external `clru`
crate) is modelled as a front-is-most-recent list: `put` removes the key,
conses the fresh entry and truncates to capacity; `get` moves the hit entry
to the front. -/

/-- Modelled from the spec: the `MAX_TTL` fallback constant lives in the
droute crate root, which is not among the provided sources; the claims do
not depend on its numeric value. -/
def MAX_TTL : Nat := 3600

structure CacheRecord : Type where
  created_instant : Nat
  msg : Message
  ttl : Nat
deriving DecidableEq

/-- `CacheRecord::new`: TTL is the minimum answer-record TTL, or `MAX_TTL`
when there are no answers. -/
def CacheRecord.new (now : Nat) (msg : Message) : CacheRecord :=
  { created_instant := now, msg := msg
    ttl := ((msg.answers.map Answer.ttl).min?).getD MAX_TTL }

def CacheRecord.get (r : CacheRecord) : Message := r.msg

/-- `CacheRecord::validate`: alive while
`now.saturating_duration_since(created) <= ttl`. -/
def CacheRecord.validate (now : Nat) (r : CacheRecord) : Bool :=
  now - r.created_instant ≤ r.ttl

inductive RecordStatus : Type where
  | alive (m : Message)
  | expired (m : Message)
deriving DecidableEq

structure RespCache : Type where
  cap : Nat
  entries : List ((String × List Query) × CacheRecord)
deriving DecidableEq

/-- `RespCache::new(size)` (the source takes a `NonZeroUsize`, so `cap ≥ 1`
holds at every call site; theorems carry it as a hypothesis). -/
def RespCache.new (size : Nat) : RespCache := ⟨size, []⟩

/-- `RespCache::put`: only `NoError` responses are stored, keyed by
`(tag, msg.queries)`; insertion refreshes the key and evicts the
least-recently-used entry when over capacity. -/
def RespCache.put (now : Nat) (c : RespCache) (tag : String) (msg : Message) :
    RespCache :=
  if msg.rcode = .noError then
    { c with entries :=
        (((tag, msg.queries), CacheRecord.new now msg) ::
          c.entries.filter (fun e => e.1 ≠ (tag, msg.queries))).take c.cap }
  else c

/-- `RespCache::get`: look up `(tag, msg.queries)`; on a hit clone the
record and return `Alive` while it validates, `Expired` otherwise (the hit
is touched to the front of the LRU order). -/
def RespCache.get (now : Nat) (c : RespCache) (tag : String) (msg : Message) :
    Option RecordStatus × RespCache :=
  match c.entries.find? (fun e => e.1 = (tag, msg.queries)) with
  | some e =>
    (some (if CacheRecord.validate now e.2 then .alive e.2.get else .expired e.2.get),
      { c with entries := e :: c.entries.filter (fun x => x.1 ≠ (tag, msg.queries)) })
  | none => (none, c)

/-- Minimum answer TTL with the `MAX_TTL` fallback, as computed by
`CacheRecord::new`. -/
def minAnswerTtl (r : Message) : Nat :=
  ((r.answers.map Answer.ttl).min?).getD MAX_TTL

/-- C3 (amended): after `put(tag, r)` at time `t0` with `r`'s rcode
`NoError`, `get(tag, q)` at time `t1` for a `q` with the same question list
returns `Alive r` while `t1 - t0 ≤ T` and `Expired r` once `t1 - t0 > T`
(the boundary instant `t1 - t0 = T` is still alive), where `T` is the
minimum answer TTL (or `MAX_TTL` with no answers); a `put` of a response
with any other rcode stores nothing, so on a cache without the key a
subsequent `get` misses. -/
theorem c3_cache_ttl (c : RespCache) (tag : String) (r q : Message) (t0 t1 : Nat)
    (hcap : 1 ≤ c.cap) (hq : q.queries = r.queries) :
    (r.rcode = .noError →
      (RespCache.get t1 (RespCache.put t0 c tag r) tag q).1
        = some (if t1 - t0 ≤ minAnswerTtl r then .alive r else .expired r))
    ∧ (r.rcode ≠ .noError →
        RespCache.put t0 c tag r = c
        ∧ (c.entries.find? (fun e => e.1 = (tag, q.queries)) = none →
            (RespCache.get t1 (RespCache.put t0 c tag r) tag q).1 = none)) := by
  constructor
  · intro hrc
    obtain ⟨n, hn⟩ : ∃ n, c.cap = n + 1 := ⟨c.cap - 1, by omega⟩
    rw [RespCache.put, if_pos hrc, RespCache.get]
    simp only [hn, List.take_succ_cons]
    rw [List.find?_cons_of_pos _ (by simp [hq])]
    simp only [CacheRecord.get, CacheRecord.new, CacheRecord.validate, minAnswerTtl]
    by_cases hT : t1 - t0 ≤ ((r.answers.map Answer.ttl).min?).getD MAX_TTL
    · simp [hT]
    · simp [hT]
  · intro hrc
    have hput : RespCache.put t0 c tag r = c := by
      rw [RespCache.put, if_neg hrc]
    refine ⟨hput, fun hfind => ?_⟩
    rw [hput, RespCache.get, hq] at *
    rw [hfind]

/-- C3 witness: a single `NoError` answer with TTL 5, put at time 0 and
fetched at time 3 — alive; the error-rcode branch also instantiated. -/
theorem c3_witness :
    (1 ≤ (RespCache.new 1).cap
      ∧ (Message.new.queries : List Query) = Message.new.queries)
    ∧ ((Message.new.rcode = .noError →
        (RespCache.get 3 (RespCache.put 0 (RespCache.new 1) "mock" Message.new)
            "mock" Message.new).1
          = some (if 3 - 0 ≤ minAnswerTtl Message.new then .alive Message.new
              else .expired Message.new))
      ∧ (Message.new.rcode ≠ .noError →
          RespCache.put 0 (RespCache.new 1) "mock" Message.new = RespCache.new 1
          ∧ ((RespCache.new 1).entries.find?
                (fun e => e.1 = ("mock", Message.new.queries)) = none →
              (RespCache.get 3 (RespCache.put 0 (RespCache.new 1) "mock" Message.new)
                  "mock" Message.new).1 = none))) :=
  ⟨⟨by decide, rfl⟩,
    c3_cache_ttl (RespCache.new 1) "mock" Message.new Message.new 0 3 (by decide) rfl⟩

/-- C3 counterexample: with minimum answer TTL T = 5, a `get` exactly T
seconds after the `put` still returns `Alive` (the source checks
`elapsed ≤ ttl`), whereas the claim requires `Expired` as soon as the
elapsed time is no longer strictly below T. -/
theorem c3_counterexample :
    (RespCache.get 5
        (RespCache.put 0 (RespCache.new 1) "mock"
          { id := 0, opcode := .query, qr := true, rd := false, rcode := .noError
            queries := [⟨"www.apple.com", 1⟩]
            answers := [⟨"www.apple.com", 5, "1.1.1.1"⟩] })
        "mock"
        { id := 0, opcode := .query, qr := true, rd := false, rcode := .noError
          queries := [⟨"www.apple.com", 1⟩]
          answers := [⟨"www.apple.com", 5, "1.1.1.1"⟩] }).1
      = some (.alive
          { id := 0, opcode := .query, qr := true, rd := false, rcode := .noError
            queries := [⟨"www.apple.com", 1⟩]
            answers := [⟨"www.apple.com", 5, "1.1.1.1"⟩] })
    ∧ minAnswerTtl
        { id := 0, opcode := .query, qr := true, rd := false, rcode := .noError
          queries := [⟨"www.apple.com", 1⟩]
          answers := [⟨"www.apple.com", 5, "1.1.1.1"⟩] } = 5
    ∧ RecordStatus.alive
          { id := 0, opcode := .query, qr := true, rd := false, rcode := .noError
            queries := [⟨"www.apple.com", 1⟩]
            answers := [⟨"www.apple.com", 5, "1.1.1.1"⟩] }
        ≠ RecordStatus.expired
          { id := 0, opcode := .query, qr := true, rd := false, rcode := .noError
            queries := [⟨"www.apple.com", 1⟩]
            answers := [⟨"www.apple.com", 5, "1.1.1.1"⟩] } := by
  refine ⟨by decide, by decide, by decide⟩

/-! ### Rules, matchers and actions

The `Rule` trait object, its two shapes, matchers and actions are declared
in parts of the droute crate that are not among the provided sources; they
are modelled from the spec (sections 3, 4.4, 4.5): a rule is a `SeqBlock`
(one branch) or an `IfBlock` (matcher plus two branches); a branch is an
action list and a next tag; `dsts()` lists the branches' next tags;
`used_upstreams()` collects the tags of `Query` actions. -/

/-- Modelled from the spec: cache interaction mode of a `Query` action. -/
inductive CacheMode : Type where
  | persist
  | standard
  | disabled
deriving DecidableEq

/-- Modelled from the spec: actions transform the per-query state.  `query`
replaces the response with the upstream's answer (and may fail); `skip`
leaves the state unchanged; `shape` abstracts the remaining
response-shaping variants (such as `Disable`), whose concrete semantics
live outside the provided sources — they may rewrite the response
arbitrarily but never touch the stored original query. -/
inductive Action : Type where
  | query (tag : String) (mode : CacheMode)
  | skip
  | shape (f : Message → Message)

/-- Modelled from the spec: the upstream registry acts as a fallible map
from an upstream tag and the current message to an answer. -/
def Upstreams : Type := String → Message → Except String Message

structure QueryContext : Type where
  ip : Nat

/-- Per-query state of `Table::route`: the original query (never mutated),
the response under construction, and the optional query context. -/
structure State : Type where
  qctx : Option QueryContext
  resp : Message
  query : Message

/-- Modelled from the spec: matcher variants (`Any`, `Domain`, `QType`) and
their boolean combinators; a matcher inspects the state and returns a
boolean, infallibly. -/
inductive Matcher : Type where
  | any
  | domainM (d : Domain)
  | qtypeM (ts : List Nat)
  | notM (m : Matcher)
  | andM (a b : Matcher)
  | orM (a b : Matcher)

def Matcher.matches : Matcher → State → Bool
  | .any, _ => true
  | .domainM d, s =>
    match s.query.queries with
    | [] => false
    | q :: _ => d.matches q.name
  | .qtypeM ts, s =>
    match s.query.queries with
    | [] => false
    | q :: _ => ts.contains q.qtype
  | .notM m, s => !(m.matches s)
  | .andM a b, s => a.matches s && b.matches s
  | .orM a b, s => a.matches s || b.matches s

structure Branch : Type where
  actions : List Action
  next : String

inductive Rule : Type where
  | seqBlock (b : Branch)
  | ifBlock (m : Matcher) (onMatch noMatch : Branch)

/-- Destination tags of a rule, as consumed by the validation traversal. -/
def Rule.dsts : Rule → List String
  | .seqBlock b => [b.next]
  | .ifBlock _ b1 b2 => [b1.next, b2.next]

def Branch.upstreamTags (b : Branch) : List String :=
  b.actions.filterMap (fun a =>
    match a with
    | .query tag _ => some tag
    | _ => none)

def Rule.usedUpstreams : Rule → List String
  | .seqBlock b => b.upstreamTags
  | .ifBlock _ b1 b2 => b1.upstreamTags ++ b2.upstreamTags

def execAction (ups : Upstreams) (s : State) : Action → Except String State
  | .query tag _ =>
    match ups tag s.resp with
    | .ok m => .ok { s with resp := m }
    | .error e => .error e
  | .skip => .ok s
  | .shape f => .ok { s with resp := f s.resp }

def execActions (ups : Upstreams) : State → List Action → Except String State
  | s, [] => .ok s
  | s, a :: rest =>
    match execAction ups s a with
    | .ok s2 => execActions ups s2 rest
    | .error e => .error e

def Branch.route (ups : Upstreams) (s : State) (b : Branch) :
    Except String (State × String) :=
  match execActions ups s b.actions with
  | .ok s2 => .ok (s2, b.next)
  | .error e => .error e

/-- Per-rule routing step (spec section 4.4): a `SeqBlock` runs its actions
and emits its next tag; an `IfBlock` evaluates the matcher, runs the chosen
branch's actions and emits that branch's next tag. -/
def Rule.route (ups : Upstreams) (s : State) : Rule → Except String (State × String)
  | .seqBlock b => b.route ups s
  | .ifBlock m b1 b2 => if m.matches s then b1.route ups s else b2.route ups s

/-! ### The routing table (src/droute/src/router/table/mod.rs) -/

/-- Modelled from the spec: the per-walk visit counter (`ValidateCell`, in
the droute crate root, not under src/): `val` is the recursion counter,
decremented on unwind; `used` records that the rule was ever visited. -/
structure ValidateCell : Type where
  used : Bool
  value : Int
deriving DecidableEq

def ValidateCell.default : ValidateCell := ⟨false, 0⟩

def ValidateCell.val (c : ValidateCell) : Int := c.value

def ValidateCell.add (c : ValidateCell) (n : Int) : ValidateCell := ⟨true, c.value + n⟩

def ValidateCell.sub (c : ValidateCell) (n : Int) : ValidateCell := ⟨true, c.value - n⟩

/-- The validation errors produced by `Table::new` (`TableError`); the
variants irrelevant to construction are omitted. -/
inductive TableError : Type where
  | unusedRules (tags : List String)
  | ruleRecursion (tag : String)
  | undefinedTag (tag : String)
deriving DecidableEq

def Bucket : Type := List (String × (ValidateCell × Rule))

/- The `traverse` function of table/mod.rs, with an explicit fuel
parameter bounding the recursion depth (the Rust recursion is dynamically
bounded by the counter check; `traverse_fuel_sufficient` below shows the
fuel used by `TableNew` never runs out).  `traverseList` is the
`for dst in dsts` loop. -/
def traverseList (tr : Bucket → String → Option (Except TableError Bucket)) :
    Bucket → List String → Option (Except TableError Bucket)
  | bucket, [] => some (.ok bucket)
  | bucket, d :: rest =>
    if d = "end" then traverseList tr bucket rest
    else
      match tr bucket d with
      | some (.ok b2) => traverseList tr b2 rest
      | other => other

def traverse : Nat → Bucket → String → Option (Except TableError Bucket)
  | 0, _, _ => none
  | fuel + 1, bucket, tag =>
    match alookup tag bucket with
    | none => some (.error (.undefinedTag tag))
    | some (c, r) =>
      if 1 ≤ c.val then some (.error (.ruleRecursion tag))
      else
        match traverseList (traverse fuel)
            (amodify tag (fun p => (p.1.add 1, p.2)) bucket) r.dsts with
        | some (.ok b2) => some (.ok (amodify tag (fun p => (p.1.sub 1, p.2)) b2))
        | other => other

structure Table : Type where
  rules : List (String × Rule)
  used_upstreams : List String

/-- The tail of `Table::new` after a successful traversal: collect the
upstreams of used rules and fail when any rule remained unused. -/
def finishNew (table : List (String × Rule)) (b2 : Bucket) : Except TableError Table :=
  let ups := (b2.filter (fun e => e.2.1.used)).flatMap (fun e => e.2.2.usedUpstreams)
  let unused := (b2.filter (fun e => !e.2.1.used)).map Prod.fst
  if unused.isEmpty then .ok { rules := table, used_upstreams := ups }
  else .error (.unusedRules unused)

/-- `Table::new`: build the counter bucket, traverse from `start`, then
check for unused rules.  The `none` (out-of-fuel) branch of the match is
dead: by `traverse_bwd`, whenever construction can succeed at all the fuel
`length + 1` suffices, and the branch's value is an error either way. -/
def TableNew (table : List (String × Rule)) : Except TableError Table :=
  let bucket : Bucket := table.map (fun kv => (kv.1, (ValidateCell.default, kv.2)))
  match traverse (table.length + 1) bucket "start" with
  | none => .error (.undefinedTag "start")
  | some (.error e) => .error e
  | some (.ok b2) => finishNew table b2

/-! ### The routing loop (`Table::route`) and the router boundary -/

inductive LoopRes : Type where
  | ok (s : State)
  | err (e : String)
  | missingTag (tag : String)
  | fuelOut

/-- The `while tag != "end"` loop of `Table::route`, with fuel:
`missingTag` marks the `rules.get(tag).unwrap()` panic (dead after
validation), `fuelOut` marks fuel exhaustion (dead after validation, see
the C10 theorem). -/
def routeGo (ups : Upstreams) (rules : List (String × Rule)) :
    Nat → State → String → LoopRes
  | 0, _, _ => .fuelOut
  | fuel + 1, s, tag =>
    if tag = "end" then .ok s
    else
      match alookup tag rules with
      | none => .missingTag tag
      | some r =>
        match r.route ups s with
        | .error e => .err e
        | .ok (s2, nxt) => routeGo ups rules fuel s2 nxt

/-- Proof-side instrumented copy of `routeGo` that also returns the list of
tags whose rules were invoked, in order; `routeSteps_snd` relates the two. -/
def routeSteps (ups : Upstreams) (rules : List (String × Rule)) :
    Nat → State → String → List String × LoopRes
  | 0, _, _ => ([], .fuelOut)
  | fuel + 1, s, tag =>
    if tag = "end" then ([], .ok s)
    else
      match alookup tag rules with
      | none => ([], .missingTag tag)
      | some r =>
        match r.route ups s with
        | .error e => ([tag], .err e)
        | .ok (s2, nxt) =>
          let out := routeSteps ups rules fuel s2 nxt
          (tag :: out.1, out.2)

inductive RouteRes : Type where
  | ok (m : Message)
  | err (e : String)
  | missingTag (tag : String)
  | fuelOut
  | noQuestion

/-- `Table::route`: initialise the state with `resp = query`, run the loop
from `start`, then rebuild the outgoing header from the original query
(id, QR=response, opcode, rd) keeping the response's rcode.  `noQuestion`
marks the `first_question().unwrap()` panic on a query with no questions
(the caller guarantees non-emptiness). -/
def Table.route (fuel : Nat) (t : Table) (query : Message) (qctx : Option QueryContext)
    (ups : Upstreams) : RouteRes :=
  if query.queries.isEmpty then .noQuestion
  else
    match routeGo ups t.rules fuel { qctx := qctx, query := query, resp := query } "start" with
    | .ok s =>
      .ok { s.resp with
        id := s.query.id, qr := true, opcode := s.query.opcode
        rd := s.query.rd, rcode := s.resp.rcode }
    | .err e => .err e
    | .missingTag tg => .missingTag tg
    | .fuelOut => .fuelOut

structure Router : Type where
  table : Table
  upstreams : Upstreams

/-- `Router::resolve`: reject queries with no questions with a synthesized
SERVFAIL; convert any routing error into a SERVFAIL carrying the original
id and opcode; pass successful responses through.  (This router version
passes no query context to the table.)  The dead loop outcomes
(`missingTag`, `fuelOut`, `noQuestion`) map to `none`. -/
def Router.resolve (fuel : Nat) (r : Router) (msg : Message) : Option Message :=
  if !msg.queries.isEmpty then
    match r.table.route fuel msg none r.upstreams with
    | .ok m => some m
    | .err _ => some (Message.errorMsg msg.id msg.opcode .servFail)
    | _ => none
  else some (Message.errorMsg msg.id msg.opcode .servFail)

/-! ### Basic facts about the routing step -/

theorem execAction_query_eq (ups : Upstreams) (s s2 : State) (a : Action)
    (h : execAction ups s a = .ok s2) : s2.query = s.query ∧ s2.qctx = s.qctx := by
  cases a with
  | query tag mode =>
    rw [execAction] at h
    cases hu : ups tag s.resp with
    | ok m => rw [hu] at h; injection h with h2; rw [← h2]; exact ⟨rfl, rfl⟩
    | error e => rw [hu] at h; cases h
  | skip =>
    rw [execAction] at h
    injection h with h2
    rw [← h2]
    exact ⟨rfl, rfl⟩
  | shape f =>
    rw [execAction] at h
    injection h with h2
    rw [← h2]
    exact ⟨rfl, rfl⟩

theorem execActions_query_eq (ups : Upstreams) :
    ∀ (as_ : List Action) (s s2 : State), execActions ups s as_ = .ok s2 →
      s2.query = s.query ∧ s2.qctx = s.qctx := by
  intro as_
  induction as_ with
  | nil =>
    intro s s2 h
    rw [execActions] at h
    injection h with h2
    rw [← h2]
    exact ⟨rfl, rfl⟩
  | cons a rest ih =>
    intro s s2 h
    rw [execActions] at h
    cases ha : execAction ups s a with
    | ok s1 =>
      rw [ha] at h
      obtain ⟨h1, h1c⟩ := execAction_query_eq ups s s1 a ha
      obtain ⟨h2, h2c⟩ := ih s1 s2 h
      exact ⟨h2.trans h1, h2c.trans h1c⟩
    | error e => rw [ha] at h; cases h

theorem branch_route_ok (ups : Upstreams) (s s2 : State) (b : Branch) (nxt : String)
    (h : b.route ups s = .ok (s2, nxt)) :
    nxt = b.next ∧ s2.query = s.query ∧ s2.qctx = s.qctx := by
  rw [Branch.route] at h
  cases ha : execActions ups s b.actions with
  | ok s1 =>
    rw [ha] at h
    injection h with h2
    obtain ⟨hs, hn⟩ := Prod.ext_iff.mp h2
    simp only at hs hn
    obtain ⟨hq, hc⟩ := execActions_query_eq ups b.actions s s1 ha
    subst hs
    exact ⟨hn.symm, hq, hc⟩
  | error e => rw [ha] at h; cases h

theorem rule_route_ok (ups : Upstreams) (s s2 : State) (r : Rule) (nxt : String)
    (h : r.route ups s = .ok (s2, nxt)) :
    nxt ∈ r.dsts ∧ s2.query = s.query ∧ s2.qctx = s.qctx := by
  cases r with
  | seqBlock b =>
    rw [Rule.route] at h
    obtain ⟨hn, hq, hc⟩ := branch_route_ok ups s s2 b nxt h
    exact ⟨by rw [Rule.dsts, hn]; exact List.mem_singleton_self _, hq, hc⟩
  | ifBlock m b1 b2 =>
    rw [Rule.route] at h
    by_cases hm : m.matches s
    · rw [if_pos hm] at h
      obtain ⟨hn, hq, hc⟩ := branch_route_ok ups s s2 b1 nxt h
      exact ⟨by rw [Rule.dsts, hn]; exact List.mem_cons_self _ _, hq, hc⟩
    · rw [if_neg hm] at h
      obtain ⟨hn, hq, hc⟩ := branch_route_ok ups s s2 b2 nxt h
      refine ⟨by rw [Rule.dsts, hn]; exact List.mem_cons_of_mem _ (List.mem_cons_self _ _),
        hq, hc⟩

theorem routeGo_ok_query (ups : Upstreams) (rules : List (String × Rule)) :
    ∀ (fuel : Nat) (s : State) (tag : String) (s2 : State),
      routeGo ups rules fuel s tag = .ok s2 → s2.query = s.query ∧ s2.qctx = s.qctx := by
  intro fuel
  induction fuel with
  | zero => intro s tag s2 h; cases h
  | succ fuel ih =>
    intro s tag s2 h
    rw [routeGo] at h
    by_cases he : tag = "end"
    · rw [if_pos he] at h
      injection h with h2
      rw [← h2]
      exact ⟨rfl, rfl⟩
    · rw [if_neg he] at h
      cases hl : alookup tag rules with
      | none =>
        simp only [hl] at h
        exact LoopRes.noConfusion h
      | some r =>
        simp only [hl] at h
        cases hr : r.route ups s with
        | error e =>
          simp only [hr] at h
          exact LoopRes.noConfusion h
        | ok p =>
          obtain ⟨s1, nxt⟩ := p
          simp only [hr] at h
          obtain ⟨_, hq1, hc1⟩ := rule_route_ok ups s s1 r nxt hr
          obtain ⟨hq2, hc2⟩ := ih s1 nxt s2 h
          exact ⟨hq2.trans hq1, hc2.trans hc1⟩

/-- C6: when a query with at least one question routes without error, the
returned message carries the query's id, opcode, QR=response and rd, and
the rcode of the final state's response; `resolve` passes it through
unchanged. -/
theorem c6_header_normalization (tbl : Table) (ups : Upstreams) (q : Message)
    (fuel : Nat) (m : Message)
    (hq : q.queries ≠ [])
    (hok : Table.route fuel tbl q none ups = .ok m) :
    Router.resolve fuel { table := tbl, upstreams := ups } q = some m
    ∧ m.id = q.id ∧ m.opcode = q.opcode ∧ m.qr = true ∧ m.rd = q.rd
    ∧ ∃ s : State,
        routeGo ups tbl.rules fuel { qctx := none, query := q, resp := q } "start" = .ok s
        ∧ s.query = q ∧ m.rcode = s.resp.rcode := by
  have hne : q.queries.isEmpty = false := by
    cases h : q.queries.isEmpty with
    | false => rfl
    | true => exact absurd (List.isEmpty_iff.mp h) hq
  rw [Table.route, if_neg (by rw [hne]; exact Bool.false_ne_true)] at hok
  cases hloop : routeGo ups tbl.rules fuel { qctx := none, query := q, resp := q } "start" with
  | err e => rw [hloop] at hok; cases hok
  | missingTag t2 => rw [hloop] at hok; cases hok
  | fuelOut => rw [hloop] at hok; cases hok
  | ok s =>
    rw [hloop] at hok
    injection hok with hm
    obtain ⟨hqs, _⟩ := routeGo_ok_query ups tbl.rules fuel _ "start" s hloop
    have hresolve :
        Router.resolve fuel { table := tbl, upstreams := ups } q = some m := by
      rw [Router.resolve, if_pos (by rw [hne]; rfl)]
      rw [Table.route, if_neg (by rw [hne]; exact Bool.false_ne_true), hloop, ← hm]
    refine ⟨hresolve, ?_, ?_, ?_, ?_, s, rfl, hqs, ?_⟩
    · rw [← hm, hqs]
    · rw [← hm, hqs]
    · rw [← hm]
    · rw [← hm, hqs]
    · rw [← hm]

/-- Concrete one-rule table used by the routing witnesses. -/
def tbl0 : Table := ⟨[("start", .seqBlock ⟨[], "end"⟩)], []⟩

/-- Concrete upstream registry used by the routing witnesses. -/
def ups0 : Upstreams := fun _ m => .ok m

/-- Concrete single-question query used by the routing witnesses. -/
def q0 : Message :=
  { id := 7, opcode := .query, qr := false, rd := true, rcode := .noError
    queries := [⟨"a", 1⟩], answers := [] }

/-- The response `tbl0` produces for `q0`. -/
def m0 : Message :=
  { id := 7, opcode := .query, qr := true, rd := true, rcode := .noError
    queries := [⟨"a", 1⟩], answers := [] }

/-- C6 witness: routing `q0` through the one-rule table yields `m0`, whose
header agrees with `q0` as the theorem states. -/
theorem c6_witness :
    (q0.queries ≠ [] ∧ Table.route 2 tbl0 q0 none ups0 = .ok m0)
    ∧ (Router.resolve 2 { table := tbl0, upstreams := ups0 } q0 = some m0
      ∧ m0.id = q0.id ∧ m0.opcode = q0.opcode ∧ m0.qr = true ∧ m0.rd = q0.rd
      ∧ ∃ s : State,
          routeGo ups0 tbl0.rules 2 { qctx := none, query := q0, resp := q0 } "start" = .ok s
          ∧ s.query = q0 ∧ m0.rcode = s.resp.rcode) :=
  ⟨⟨by decide, by rfl⟩,
    c6_header_normalization tbl0 ups0 q0 2 m0 (by decide) (by rfl)⟩

/-- C7: a query whose question section is empty is rejected at the
`resolve` boundary with a synthesized SERVFAIL carrying its id and opcode,
for every table, upstream registry and fuel — in particular the routing
table is never consulted; `Message::new()` is such a query, giving SERVFAIL
with id 0 and opcode Query. -/
theorem c7_empty_query_servfail (tbl : Table) (ups : Upstreams) (fuel : Nat)
    (q : Message) (hq : q.queries = []) :
    Router.resolve fuel { table := tbl, upstreams := ups } q
        = some (Message.errorMsg q.id q.opcode .servFail)
    ∧ Router.resolve fuel { table := tbl, upstreams := ups } Message.new
        = some (Message.errorMsg 0 .query .servFail) := by
  constructor
  · rw [Router.resolve]
    simp [hq]
  · rw [Router.resolve]
    rfl

/-- C7 witness: the empty message at a concrete router. -/
theorem c7_witness :
    (Message.new.queries = ([] : List Query))
    ∧ (Router.resolve 2 { table := tbl0, upstreams := ups0 } Message.new
          = some (Message.errorMsg Message.new.id Message.new.opcode .servFail)
      ∧ Router.resolve 2 { table := tbl0, upstreams := ups0 } Message.new
          = some (Message.errorMsg 0 .query .servFail)) :=
  ⟨rfl, c7_empty_query_servfail tbl0 ups0 2 Message.new rfl⟩

/-- C8: the one-rule table `{start: Seq[] → start}` fails construction with
`RuleRecursion("start")`; in general the traversal returns
`RuleRecursion(tag)` the moment it reaches a tag whose visit counter is
already at least 1. -/
theorem c8_rule_recursion :
    TableNew [("start", .seqBlock ⟨[], "start"⟩)] = .error (.ruleRecursion "start")
    ∧ ∀ (fuel : Nat) (bucket : Bucket) (tag : String) (c : ValidateCell) (r : Rule),
        alookup tag bucket = some (c, r) → 1 ≤ c.val →
        traverse (fuel + 1) bucket tag = some (.error (.ruleRecursion tag)) := by
  constructor
  · rfl
  · intro fuel bucket tag c r hl hv
    simp [traverse, hl, hv]

/-- C8 witness: the general counter check applied to a concrete bucket
whose `start` cell is already at 1. -/
theorem c8_witness :
    (alookup "start" [("start", (ValidateCell.mk true 1, Rule.seqBlock ⟨[], "end"⟩))]
        = some (ValidateCell.mk true 1, Rule.seqBlock ⟨[], "end"⟩)
      ∧ (1 : Int) ≤ (ValidateCell.mk true 1).val)
    ∧ traverse 1 [("start", (ValidateCell.mk true 1, Rule.seqBlock ⟨[], "end"⟩))] "start"
        = some (.error (.ruleRecursion "start")) :=
  ⟨⟨by rfl, by decide⟩,
    c8_rule_recursion.2 0 _ "start" (ValidateCell.mk true 1) (Rule.seqBlock ⟨[], "end"⟩)
      (by rfl) (by decide)⟩

/-! ### The rule graph as a relation, and the spec-side validity conditions -/

def keysOf (rules : List (String × Rule)) : List String := rules.map Prod.fst

theorem alookup_some_mem {α β : Type} [DecidableEq α] {k : α} {v : β} :
    ∀ {l : List (α × β)}, alookup k l = some v → k ∈ l.map Prod.fst := by
  intro l
  induction l with
  | nil => intro h; cases h
  | cons hd tl ih =>
    obtain ⟨a, b⟩ := hd
    intro h
    rw [alookup] at h
    by_cases ha : a = k
    · subst ha
      exact List.mem_cons_self _ _
    · rw [if_neg ha] at h
      exact List.mem_cons_of_mem _ (ih h)

theorem mem_alookup_some {α β : Type} [DecidableEq α] {k : α} :
    ∀ {l : List (α × β)}, k ∈ l.map Prod.fst → ∃ v, alookup k l = some v := by
  intro l
  induction l with
  | nil => intro h; cases h
  | cons hd tl ih =>
    obtain ⟨a, b⟩ := hd
    intro h
    by_cases ha : a = k
    · exact ⟨b, by rw [alookup, if_pos ha]⟩
    · rcases List.mem_cons.mp h with h | h
      · exact absurd h.symm ha
      · obtain ⟨v, hv⟩ := ih h
        exact ⟨v, by rw [alookup, if_neg ha]; exact hv⟩

/-- One traversal edge of the rule graph: `t`'s rule names `u` among its
destination tags and `u` is not the terminal sentinel. -/
def Step (rules : List (String × Rule)) (t u : String) : Prop :=
  ∃ r, alookup t rules = some r ∧ u ∈ r.dsts ∧ u ≠ "end"

/-- Reachability along traversal edges. -/
def Reach (rules : List (String × Rule)) (t u : String) : Prop :=
  Relation.ReflTransGen (Step rules) t u

/-- The spec-side validity conditions of C1: a `start` rule exists, every
rule is reachable from `start`, every destination tag of a reachable rule
is a key (or the literal `end`, excluded by `Step`), and the traversal from
`start` meets no cycle. -/
def ValidGraph (rules : List (String × Rule)) : Prop :=
  (∃ r, alookup "start" rules = some r)
  ∧ (∀ k ∈ keysOf rules, Reach rules "start" k)
  ∧ (∀ t u, Reach rules "start" t → Step rules t u → ∃ r, alookup u rules = some r)
  ∧ (∀ t, Reach rules "start" t → ¬ Relation.TransGen (Step rules) t t)

/-- Success of a stack-marking depth-first walk from `tag` with recursion
stack `S`: the tag is defined, not already on the stack, and all its
non-`end` destinations admit the same walk with `tag` pushed. -/
inductive OkFrom (rules : List (String × Rule)) : Finset String → String → Prop where
  | mk : ∀ (S : Finset String) (tag : String) (r : Rule),
      alookup tag rules = some r → tag ∉ S →
      (∀ d ∈ r.dsts, d ≠ "end" → OkFrom rules (insert tag S) d) →
      OkFrom rules S tag

theorem okFrom_elim {rules : List (String × Rule)} {S : Finset String} {tag : String}
    (h : OkFrom rules S tag) :
    ∃ r, alookup tag rules = some r ∧ tag ∉ S ∧
      ∀ d ∈ r.dsts, d ≠ "end" → OkFrom rules (insert tag S) d := by
  cases h with
  | mk S tag r hr hS hd => exact ⟨r, hr, hS, hd⟩

theorem okFrom_extend {rules : List (String × Rule)} :
    ∀ {t u : String}, Reach rules t u → ∀ {S : Finset String}, OkFrom rules S t →
      ∃ S2, S ⊆ S2 ∧ OkFrom rules S2 u := by
  intro t u h
  induction h with
  | refl => intro S hS; exact ⟨S, Finset.Subset.refl S, hS⟩
  | tail hab hbc ih =>
    intro S hS
    obtain ⟨S2, hsub, hok⟩ := ih hS
    obtain ⟨r, hr, hbS, hd⟩ := okFrom_elim hok
    obtain ⟨r2, hr2, hmem, hne⟩ := hbc
    rw [hr] at hr2
    injection hr2 with he
    subst he
    exact ⟨insert _ S2, hsub.trans (Finset.subset_insert _ S2), hd _ hmem hne⟩

theorem transGen_head_decomp {α : Type} {r : α → α → Prop} {a b : α}
    (h : Relation.TransGen r a b) :
    ∃ c, r a c ∧ Relation.ReflTransGen r c b := by
  induction h with
  | single h => exact ⟨_, h, Relation.ReflTransGen.refl⟩
  | tail h1 h2 ih =>
    obtain ⟨c, hc, hcb⟩ := ih
    exact ⟨c, hc, hcb.tail h2⟩

theorem okFrom_no_cycle {rules : List (String × Rule)} {S : Finset String} {t : String}
    (h : OkFrom rules S t) : ¬ Relation.TransGen (Step rules) t t := by
  intro hcyc
  obtain ⟨r, hr, hS, hd⟩ := okFrom_elim h
  obtain ⟨d, ⟨r2, hr2, hmem, hne⟩, hreach⟩ := transGen_head_decomp hcyc
  rw [hr] at hr2
  injection hr2 with he
  subst he
  have hokd := hd d hmem hne
  obtain ⟨S2, hsub, hokt⟩ := okFrom_extend hreach hokd
  obtain ⟨_, _, htS2, _⟩ := okFrom_elim hokt
  exact htS2 (hsub (Finset.mem_insert_self t S))

theorem reach_lookup {rules : List (String × Rule)} (hv : ValidGraph rules) :
    ∀ {t : String}, Reach rules "start" t → ∃ r, alookup t rules = some r := by
  intro t h
  induction h with
  | refl => exact hv.1
  | tail hab hbc ih => exact hv.2.2.1 _ _ hab hbc

theorem validGraph_okFrom {rules : List (String × Rule)} (hv : ValidGraph rules) :
    ∀ (n : Nat) (S : Finset String) (t : String),
      ((keysOf rules).toFinset \ S).card ≤ n →
      Reach rules "start" t → S ⊆ (keysOf rules).toFinset →
      (∀ s ∈ S, Relation.TransGen (Step rules) s t) →
      OkFrom rules S t := by
  intro n
  induction n with
  | zero =>
    intro S t hcard hreach hsub hanc
    exfalso
    obtain ⟨r, hr⟩ := reach_lookup hv hreach
    have htk : t ∈ (keysOf rules).toFinset := List.mem_toFinset.mpr (alookup_some_mem hr)
    have htS : t ∉ S := fun hts => hv.2.2.2 t hreach (hanc t hts)
    have : t ∈ (keysOf rules).toFinset \ S := Finset.mem_sdiff.mpr ⟨htk, htS⟩
    have := Finset.card_pos.mpr ⟨t, this⟩
    omega
  | succ n ih =>
    intro S t hcard hreach hsub hanc
    obtain ⟨r, hr⟩ := reach_lookup hv hreach
    have htk : t ∈ (keysOf rules).toFinset := List.mem_toFinset.mpr (alookup_some_mem hr)
    have htS : t ∉ S := fun hts => hv.2.2.2 t hreach (hanc t hts)
    refine OkFrom.mk S t r hr htS ?_
    intro d hd hne
    have hstep : Step rules t d := ⟨r, hr, hd, hne⟩
    have hreachd : Reach rules "start" d := hreach.tail hstep
    refine ih (insert t S) d ?_ hreachd ?_ ?_
    · have hdiff : (keysOf rules).toFinset \ insert t S
          = ((keysOf rules).toFinset \ S).erase t := by
        ext x
        simp [Finset.mem_sdiff, Finset.mem_erase, Finset.mem_insert]
        tauto
      rw [hdiff, Finset.card_erase_of_mem (Finset.mem_sdiff.mpr ⟨htk, htS⟩)]
      omega
    · exact Finset.insert_subset htk hsub
    · intro v hvmem
      rcases Finset.mem_insert.mp hvmem with hvt | hvS
      · subst hvt
        exact Relation.TransGen.single hstep
      · exact (hanc v hvS).tail hstep

/-! ### Buckets with symbolic stack and used-flags -/

/-- Counter value of a cell whose tag is on the recursion stack `S`. -/
def cnt (S : Finset String) (k : String) : Int := if k ∈ S then 1 else 0

/-- The bucket whose cell for key `k` has counter `cnt S k` and used-flag
`U k` — every bucket arising in a run of `traverse` has this shape. -/
def mkB (rules : List (String × Rule)) (S : Finset String) (U : String → Bool) : Bucket :=
  rules.map (fun kv => (kv.1, (⟨U kv.1, cnt S kv.1⟩, kv.2)))

theorem alookup_mkB (rules : List (String × Rule)) (S : Finset String)
    (U : String → Bool) (k : String) :
    alookup k (mkB rules S U)
      = (alookup k rules).map (fun r => (⟨U k, cnt S k⟩, r)) := by
  induction rules with
  | nil => rfl
  | cons hd tl ih =>
    obtain ⟨a, b⟩ := hd
    by_cases ha : a = k
    · subst ha
      simp [mkB, alookup]
    · simp only [mkB, List.map_cons, alookup, if_neg ha]
      exact ih

theorem mkB_congr (rules : List (String × Rule)) {S S2 : Finset String}
    {U U2 : String → Bool}
    (h : ∀ k ∈ keysOf rules, U k = U2 k ∧ (k ∈ S ↔ k ∈ S2)) :
    mkB rules S U = mkB rules S2 U2 := by
  induction rules with
  | nil => rfl
  | cons hd tl ih =>
    obtain ⟨a, b⟩ := hd
    have ha := h a (List.mem_cons_self _ _)
    have hcnt : cnt S a = cnt S2 a := by
      rw [cnt, cnt]
      by_cases hmem : a ∈ S
      · rw [if_pos hmem, if_pos (ha.2.mp hmem)]
      · rw [if_neg hmem, if_neg (fun h2 => hmem (ha.2.mpr h2))]
    simp only [mkB, List.map_cons]
    rw [ha.1, hcnt]
    have := ih (fun k hk => h k (List.mem_cons_of_mem _ hk))
    simp only [mkB] at this
    rw [this]

theorem amodify_mkB (tag : String) (g : ValidateCell → ValidateCell)
    {S S2 : Finset String} {U U2 : String → Bool} :
    ∀ (rules : List (String × Rule)), (keysOf rules).Nodup →
      g ⟨U tag, cnt S tag⟩ = ⟨U2 tag, cnt S2 tag⟩ →
      (∀ k ∈ keysOf rules, k ≠ tag → U k = U2 k ∧ (k ∈ S ↔ k ∈ S2)) →
      amodify tag (fun p => (g p.1, p.2)) (mkB rules S U) = mkB rules S2 U2 := by
  intro rules
  induction rules with
  | nil => intro _ _ _; rfl
  | cons hd tl ih =>
    obtain ⟨a, b⟩ := hd
    intro hnd hcell hrest
    have hndtl : (keysOf tl).Nodup := (List.nodup_cons.mp hnd).2
    by_cases ha : a = tag
    · subst ha
      have hatl : a ∉ keysOf tl := (List.nodup_cons.mp hnd).1
      simp only [mkB, List.map_cons, amodify, if_pos rfl]
      rw [hcell]
      simp only [if_true]
      have htl : mkB tl S U = mkB tl S2 U2 := by
        refine mkB_congr tl ?_
        intro k hk
        exact hrest k (List.mem_cons_of_mem _ hk) (fun he => hatl (he ▸ hk))
      simp only [mkB] at htl
      rw [htl]
    · have hab := hrest a (List.mem_cons_self _ _) ha
      have hcnt : cnt S a = cnt S2 a := by
        rw [cnt, cnt]
        by_cases hmem : a ∈ S
        · rw [if_pos hmem, if_pos (hab.2.mp hmem)]
        · rw [if_neg hmem, if_neg (fun h2 => hmem (hab.2.mpr h2))]
      simp only [mkB, List.map_cons, amodify, if_neg ha]
      rw [hab.1, hcnt]
      have := ih hndtl hcell (fun k hk hk2 => hrest k (List.mem_cons_of_mem _ hk) hk2)
      simp only [mkB] at this
      rw [this]

theorem amodify_add_mkB (rules : List (String × Rule)) (hnd : (keysOf rules).Nodup)
    (tag : String) (S : Finset String) (U : String → Bool) (htag : tag ∉ S) :
    amodify tag (fun p => (p.1.add 1, p.2)) (mkB rules S U)
      = mkB rules (insert tag S) (fun k => if k = tag then true else U k) := by
  refine amodify_mkB tag (fun c => c.add 1) rules hnd ?_ ?_
  · simp [ValidateCell.add, cnt, if_neg htag, Finset.mem_insert_self tag S, htag]
  · intro k _ hk
    rw [if_neg hk]
    refine ⟨rfl, ?_⟩
    rw [Finset.mem_insert]
    constructor
    · intro h; exact Or.inr h
    · rintro (h | h)
      · exact absurd h hk
      · exact h

theorem amodify_sub_mkB (rules : List (String × Rule)) (hnd : (keysOf rules).Nodup)
    (tag : String) (S : Finset String) (U : String → Bool) (htag : tag ∈ S)
    (hU : U tag = true) :
    amodify tag (fun p => (p.1.sub 1, p.2)) (mkB rules S U)
      = mkB rules (S.erase tag) U := by
  refine amodify_mkB tag (fun c => c.sub 1) rules hnd ?_ ?_
  · have hne : tag ∉ S.erase tag := fun h => (Finset.mem_erase.mp h).1 rfl
    simp [ValidateCell.sub, cnt, htag, hne, hU]
  · intro k _ hk
    refine ⟨rfl, ?_⟩
    rw [Finset.mem_erase]
    constructor
    · intro h; exact ⟨hk, h⟩
    · intro h; exact h.2

theorem mkB_init (rules : List (String × Rule)) :
    rules.map (fun kv => (kv.1, (ValidateCell.default, kv.2)))
      = mkB rules ∅ (fun _ => false) := by
  simp [mkB, cnt, ValidateCell.default]

/-! ### Soundness of the traversal: success implies a valid stack-marking walk -/

theorem traverseList_fwd_aux (rules : List (String × Rule))
    (tr : Bucket → String → Option (Except TableError Bucket))
    (htr : ∀ (S : Finset String) (U : String → Bool) (tag : String) (b2 : Bucket),
      tr (mkB rules S U) tag = some (.ok b2) →
      OkFrom rules S tag ∧
        ∃ U2 : String → Bool, b2 = mkB rules S U2 ∧
          ∀ k ∈ keysOf rules, (U2 k = true ↔ (U k = true ∨ Reach rules tag k))) :
    ∀ (ds : List String) (S : Finset String) (U : String → Bool) (b2 : Bucket),
      traverseList tr (mkB rules S U) ds = some (.ok b2) →
      (∀ d ∈ ds, d ≠ "end" → OkFrom rules S d) ∧
        ∃ U2 : String → Bool, b2 = mkB rules S U2 ∧
          ∀ k ∈ keysOf rules,
            (U2 k = true ↔ (U k = true ∨ ∃ d ∈ ds, d ≠ "end" ∧ Reach rules d k)) := by
  intro ds
  induction ds with
  | nil =>
    intro S U b2 h
    rw [traverseList] at h
    injection h with h2
    injection h2 with h3
    refine ⟨by simp, U, h3.symm, fun k hk => by simp⟩
  | cons d rest ih =>
    intro S U b2 h
    by_cases hde : d = "end"
    · rw [traverseList, if_pos hde] at h
      obtain ⟨hok, U2, hb2, hchar⟩ := ih S U b2 h
      refine ⟨?_, U2, hb2, ?_⟩
      · intro d2 hd2 hne
        rcases List.mem_cons.mp hd2 with he | hmem
        · exact absurd (he.trans hde) hne
        · exact hok d2 hmem hne
      · intro k hk
        rw [hchar k hk]
        constructor
        · rintro (hU | ⟨d2, hd2, hne2, hr2⟩)
          · exact Or.inl hU
          · exact Or.inr ⟨d2, List.mem_cons_of_mem _ hd2, hne2, hr2⟩
        · rintro (hU | ⟨d2, hd2, hne2, hr2⟩)
          · exact Or.inl hU
          · rcases List.mem_cons.mp hd2 with he | hmem
            · exact absurd (he.trans hde) hne2
            · exact Or.inr ⟨d2, hmem, hne2, hr2⟩
    · rw [traverseList, if_neg hde] at h
      cases htrv : tr (mkB rules S U) d with
      | none =>
        rw [htrv] at h
        exact Option.noConfusion h
      | some exc =>
        cases exc with
        | error e =>
          rw [htrv] at h
          injection h with h2
          exact Except.noConfusion h2
        | ok b3 =>
          rw [htrv] at h
          have h3 : traverseList tr b3 rest = some (.ok b2) := h
          obtain ⟨hokd, U3, hb3, hchar3⟩ := htr S U d b3 htrv
          subst hb3
          obtain ⟨hokrest, U2, hb2, hchar2⟩ := ih S U3 b2 h3
          refine ⟨?_, U2, hb2, ?_⟩
          · intro d2 hd2 hne
            rcases List.mem_cons.mp hd2 with he | hmem
            · subst he; exact hokd
            · exact hokrest d2 hmem hne
          · intro k hk
            rw [hchar2 k hk, hchar3 k hk]
            constructor
            · rintro ((hU | hreach) | ⟨d2, hd2, hne2, hr2⟩)
              · exact Or.inl hU
              · exact Or.inr ⟨d, List.mem_cons_self _ _, hde, hreach⟩
              · exact Or.inr ⟨d2, List.mem_cons_of_mem _ hd2, hne2, hr2⟩
            · rintro (hU | ⟨d2, hd2, hne2, hr2⟩)
              · exact Or.inl (Or.inl hU)
              · rcases List.mem_cons.mp hd2 with he | hmem
                · subst he; exact Or.inl (Or.inr hr2)
                · exact Or.inr ⟨d2, hmem, hne2, hr2⟩

theorem traverse_fwd (rules : List (String × Rule)) (hnd : (keysOf rules).Nodup) :
    ∀ (fuel : Nat) (S : Finset String) (U : String → Bool) (tag : String) (b2 : Bucket),
      traverse fuel (mkB rules S U) tag = some (.ok b2) →
      OkFrom rules S tag ∧
        ∃ U2 : String → Bool, b2 = mkB rules S U2 ∧
          ∀ k ∈ keysOf rules, (U2 k = true ↔ (U k = true ∨ Reach rules tag k)) := by
  intro fuel
  induction fuel with
  | zero =>
    intro S U tag b2 h
    rw [traverse] at h
    exact Option.noConfusion h
  | succ fuel ih =>
    intro S U tag b2 h
    rw [traverse, alookup_mkB] at h
    cases hl : alookup tag rules with
    | none =>
      rw [hl] at h
      injection h with h2
      exact Except.noConfusion h2
    | some r =>
      rw [hl] at h
      simp only [Option.map_some'] at h
      by_cases hcnt : tag ∈ S
      · have hc1 : cnt S tag = 1 := by rw [cnt, if_pos hcnt]
        simp only [ValidateCell.val, hc1] at h
        rw [if_pos (by norm_num)] at h
        injection h with h2
        exact Except.noConfusion h2
      · have hc0 : cnt S tag = 0 := by rw [cnt, if_neg hcnt]
        simp only [ValidateCell.val, hc0] at h
        rw [if_neg (by norm_num)] at h
        rw [amodify_add_mkB rules hnd tag S U hcnt] at h
        cases hTL : traverseList (traverse fuel)
            (mkB rules (insert tag S) (fun k => if k = tag then true else U k)) r.dsts with
        | none =>
          rw [hTL] at h
          exact Option.noConfusion h
        | some exc =>
          cases exc with
          | error e =>
            rw [hTL] at h
            injection h with h2
            exact Except.noConfusion h2
          | ok b3 =>
            rw [hTL] at h
            obtain ⟨hokds, U3, hb3, hchar3⟩ :=
              traverseList_fwd_aux rules (traverse fuel) ih r.dsts
                (insert tag S) (fun k => if k = tag then true else U k) b3 hTL
            subst hb3
            have htk : tag ∈ keysOf rules := alookup_some_mem hl
            have hU3tag : U3 tag = true :=
              (hchar3 tag htk).mpr (Or.inl (by simp))
            have h4 : some (Except.ok (amodify tag (fun p => (p.1.sub 1, p.2))
                (mkB rules (insert tag S) U3))) = some (Except.ok b2) := h
            rw [amodify_sub_mkB rules hnd tag (insert tag S) U3
              (Finset.mem_insert_self tag S) hU3tag] at h4
            rw [Finset.erase_insert hcnt] at h4
            injection h4 with h2
            injection h2 with h3
            refine ⟨OkFrom.mk S tag r hl hcnt hokds, U3, h3.symm, ?_⟩
            intro k hk
            rw [hchar3 k hk]
            by_cases hktag : k = tag
            · subst hktag
              constructor
              · intro _
                exact Or.inr Relation.ReflTransGen.refl
              · intro _
                exact Or.inl (by simp)
            · rw [show (if k = tag then true else U k) = U k from if_neg hktag]
              constructor
              · rintro (hU | ⟨d2, hd2, hne2, hr2⟩)
                · exact Or.inl hU
                · exact Or.inr (Relation.ReflTransGen.head ⟨r, hl, hd2, hne2⟩ hr2)
              · rintro (hU | hreach)
                · exact Or.inl hU
                · rcases Relation.ReflTransGen.cases_head hreach with he | ⟨d2, hstep, hrest⟩
                  · exact absurd he.symm hktag
                  · obtain ⟨r2, hr2, hmem2, hne2⟩ := hstep
                    rw [hl] at hr2
                    injection hr2 with hre
                    subst hre
                    exact Or.inr ⟨d2, hmem2, hne2, hrest⟩

/-! ### Completeness of the traversal: a valid walk implies success -/

theorem traverseList_bwd_aux (rules : List (String × Rule))
    (tr : Bucket → String → Option (Except TableError Bucket)) (S : Finset String)
    (htr : ∀ (U : String → Bool) (tag : String), OkFrom rules S tag →
      ∃ U2 : String → Bool, tr (mkB rules S U) tag = some (.ok (mkB rules S U2)) ∧
        ∀ k ∈ keysOf rules, (U2 k = true ↔ (U k = true ∨ Reach rules tag k))) :
    ∀ (ds : List String) (U : String → Bool),
      (∀ d ∈ ds, d ≠ "end" → OkFrom rules S d) →
      ∃ U2 : String → Bool,
        traverseList tr (mkB rules S U) ds = some (.ok (mkB rules S U2)) ∧
        ∀ k ∈ keysOf rules,
          (U2 k = true ↔ (U k = true ∨ ∃ d ∈ ds, d ≠ "end" ∧ Reach rules d k)) := by
  intro ds
  induction ds with
  | nil =>
    intro U _
    exact ⟨U, by rw [traverseList], fun k hk => by simp⟩
  | cons d rest ih =>
    intro U hok
    by_cases hde : d = "end"
    · obtain ⟨U2, heq, hchar⟩ :=
        ih U (fun d2 h2 hn => hok d2 (List.mem_cons_of_mem _ h2) hn)
      refine ⟨U2, ?_, ?_⟩
      · rw [traverseList, if_pos hde]
        exact heq
      · intro k hk
        rw [hchar k hk]
        constructor
        · rintro (hU | ⟨d2, hd2, hne2, hr2⟩)
          · exact Or.inl hU
          · exact Or.inr ⟨d2, List.mem_cons_of_mem _ hd2, hne2, hr2⟩
        · rintro (hU | ⟨d2, hd2, hne2, hr2⟩)
          · exact Or.inl hU
          · rcases List.mem_cons.mp hd2 with he | hmem
            · exact absurd (he.trans hde) hne2
            · exact Or.inr ⟨d2, hmem, hne2, hr2⟩
    · have hokd := hok d (List.mem_cons_self _ _) hde
      obtain ⟨U3, heq3, hchar3⟩ := htr U d hokd
      obtain ⟨U2, heq2, hchar2⟩ :=
        ih U3 (fun d2 h2 hn => hok d2 (List.mem_cons_of_mem _ h2) hn)
      refine ⟨U2, ?_, ?_⟩
      · rw [traverseList, if_neg hde, heq3]
        exact heq2
      · intro k hk
        rw [hchar2 k hk, hchar3 k hk]
        constructor
        · rintro ((hU | hreach) | ⟨d2, hd2, hne2, hr2⟩)
          · exact Or.inl hU
          · exact Or.inr ⟨d, List.mem_cons_self _ _, hde, hreach⟩
          · exact Or.inr ⟨d2, List.mem_cons_of_mem _ hd2, hne2, hr2⟩
        · rintro (hU | ⟨d2, hd2, hne2, hr2⟩)
          · exact Or.inl (Or.inl hU)
          · rcases List.mem_cons.mp hd2 with he | hmem
            · subst he; exact Or.inl (Or.inr hr2)
            · exact Or.inr ⟨d2, hmem, hne2, hr2⟩

theorem traverse_bwd (rules : List (String × Rule)) (hnd : (keysOf rules).Nodup) :
    ∀ (fuel : Nat) (S : Finset String) (U : String → Bool) (tag : String),
      OkFrom rules S tag → ((keysOf rules).toFinset \ S).card < fuel →
      ∃ U2 : String → Bool,
        traverse fuel (mkB rules S U) tag = some (.ok (mkB rules S U2)) ∧
        ∀ k ∈ keysOf rules, (U2 k = true ↔ (U k = true ∨ Reach rules tag k)) := by
  intro fuel
  induction fuel with
  | zero =>
    intro S U tag _ hcard
    omega
  | succ fuel ih =>
    intro S U tag hok hcard
    obtain ⟨r, hl, hS, hd⟩ := okFrom_elim hok
    have htk : tag ∈ (keysOf rules).toFinset := List.mem_toFinset.mpr (alookup_some_mem hl)
    have hc0 : cnt S tag = 0 := by rw [cnt, if_neg hS]
    have hmemd : tag ∈ (keysOf rules).toFinset \ S := Finset.mem_sdiff.mpr ⟨htk, hS⟩
    have hcard2 : ((keysOf rules).toFinset \ insert tag S).card < fuel := by
      have hdiff : (keysOf rules).toFinset \ insert tag S
          = ((keysOf rules).toFinset \ S).erase tag := by
        ext x
        simp only [Finset.mem_sdiff, Finset.mem_erase, Finset.mem_insert]
        tauto
      have hpos := Finset.card_pos.mpr ⟨tag, hmemd⟩
      rw [hdiff, Finset.card_erase_of_mem hmemd]
      omega
    obtain ⟨U3, heqTL, hchar3⟩ :=
      traverseList_bwd_aux rules (traverse fuel) (insert tag S)
        (fun U2 tag2 hok2 => ih (insert tag S) U2 tag2 hok2 hcard2)
        r.dsts (fun k => if k = tag then true else U k) hd
    have hU3tag : U3 tag = true := (hchar3 tag (alookup_some_mem hl)).mpr (Or.inl (by simp))
    refine ⟨U3, ?_, ?_⟩
    · rw [traverse, alookup_mkB, hl]
      simp only [Option.map_some', ValidateCell.val, hc0]
      rw [if_neg (by norm_num)]
      rw [amodify_add_mkB rules hnd tag S U hS, heqTL]
      show some (Except.ok (amodify tag (fun p => (p.1.sub 1, p.2))
          (mkB rules (insert tag S) U3))) = some (Except.ok (mkB rules S U3))
      rw [amodify_sub_mkB rules hnd tag (insert tag S) U3
        (Finset.mem_insert_self tag S) hU3tag, Finset.erase_insert hS]
    · intro k hk
      rw [hchar3 k hk]
      by_cases hktag : k = tag
      · subst hktag
        constructor
        · intro _
          exact Or.inr Relation.ReflTransGen.refl
        · intro _
          exact Or.inl (by simp)
      · rw [show (if k = tag then true else U k) = U k from if_neg hktag]
        constructor
        · rintro (hU | ⟨d2, hd2, hne2, hr2⟩)
          · exact Or.inl hU
          · exact Or.inr (Relation.ReflTransGen.head ⟨r, hl, hd2, hne2⟩ hr2)
        · rintro (hU | hreach)
          · exact Or.inl hU
          · rcases Relation.ReflTransGen.cases_head hreach with he | ⟨d2, hstep, hrest⟩
            · exact absurd he.symm hktag
            · obtain ⟨r2, hr2, hmem2, hne2⟩ := hstep
              rw [hl] at hr2
              injection hr2 with hre
              subst hre
              exact Or.inr ⟨d2, hmem2, hne2, hrest⟩

/-! ### The construction iff -/

theorem mkB_unused_nil (S : Finset String) (U : String → Bool) :
    ∀ rules : List (String × Rule),
      (((mkB rules S U).filter (fun e => !e.2.1.used)).map Prod.fst = []
        ↔ ∀ k ∈ keysOf rules, U k = true) := by
  intro rules
  induction rules with
  | nil => simp [mkB, keysOf]
  | cons hd tl ih =>
    obtain ⟨a, b⟩ := hd
    simp only [mkB, List.map_cons] at *
    cases hU : U a with
    | false =>
      constructor
      · intro h
        rw [List.filter_cons_of_pos (by simp [hU])] at h
        cases h
      · intro h
        have := h a (by rw [keysOf]; exact List.mem_cons_self _ _)
        rw [hU] at this
        cases this
    | true =>
      rw [List.filter_cons_of_neg (by simp [hU])]
      rw [ih]
      have hkeys : keysOf ((a, b) :: tl) = a :: keysOf tl := rfl
      constructor
      · intro h k hk
        rw [hkeys] at hk
        rcases List.mem_cons.mp hk with he | hmem
        · rw [he]; exact hU
        · exact h k hmem
      · intro h k hk
        refine h k ?_
        rw [hkeys]
        exact List.mem_cons_of_mem _ hk

theorem tableNew_ok_iff (rules : List (String × Rule)) (hnd : (keysOf rules).Nodup) :
    (TableNew rules).isOk = true ↔ ValidGraph rules := by
  constructor
  · intro h
    simp only [TableNew, mkB_init rules] at h
    cases htr : traverse (rules.length + 1) (mkB rules ∅ (fun _ => false)) "start" with
    | none =>
      rw [htr] at h
      simp [Except.isOk, Except.toBool] at h
    | some exc =>
      cases exc with
      | error e =>
        rw [htr] at h
        simp [Except.isOk, Except.toBool] at h
      | ok b2 =>
        rw [htr] at h
        obtain ⟨hok, U2, hb2, hchar⟩ :=
          traverse_fwd rules hnd (rules.length + 1) ∅ (fun _ => false) "start" b2 htr
        subst hb2
        have h2 : (finishNew rules (mkB rules ∅ U2)).isOk = true := h
        simp only [finishNew] at h2
        have hall : ∀ k ∈ keysOf rules, U2 k = true := by
          cases hemp : (((mkB rules ∅ U2).filter (fun e => !e.2.1.used)).map Prod.fst) with
          | nil => exact (mkB_unused_nil ∅ U2 rules).mp hemp
          | cons x xs =>
            rw [hemp] at h2
            simp [Except.isOk, Except.toBool] at h2
        obtain ⟨r0, hr0, _, _⟩ := okFrom_elim hok
        refine ⟨⟨r0, hr0⟩, ?_, ?_, ?_⟩
        · intro k hk
          rcases (hchar k hk).mp (hall k hk) with hf | hr
          · cases hf
          · exact hr
        · intro t u hreach hstep
          obtain ⟨S2, hsub, hokt⟩ := okFrom_extend hreach hok
          obtain ⟨rt, hrt, _, hdt⟩ := okFrom_elim hokt
          obtain ⟨rt2, hrt2, hmem, hne⟩ := hstep
          rw [hrt] at hrt2
          injection hrt2 with hre
          subst hre
          obtain ⟨ru, hru, _, _⟩ := okFrom_elim (hdt u hmem hne)
          exact ⟨ru, hru⟩
        · intro t hreach
          obtain ⟨S2, _, hokt⟩ := okFrom_extend hreach hok
          exact okFrom_no_cycle hokt
  · intro hv
    have hok : OkFrom rules ∅ "start" :=
      validGraph_okFrom hv ((keysOf rules).toFinset).card ∅ "start"
        (by simp) Relation.ReflTransGen.refl (Finset.empty_subset _) (by simp)
    have hcard : ((keysOf rules).toFinset \ ∅).card < rules.length + 1 := by
      rw [Finset.sdiff_empty]
      have h1 := (keysOf rules).toFinset_card_le
      have h2 : (keysOf rules).length = rules.length := List.length_map rules Prod.fst
      omega
    obtain ⟨U2, heq, hchar⟩ :=
      traverse_bwd rules hnd (rules.length + 1) ∅ (fun _ => false) "start" hok hcard
    have hall : ∀ k ∈ keysOf rules, U2 k = true :=
      fun k hk => (hchar k hk).mpr (Or.inr (hv.2.1 k hk))
    have hemp : ((mkB rules ∅ U2).filter (fun e => !e.2.1.used)).map Prod.fst = [] :=
      (mkB_unused_nil ∅ U2 rules).mpr hall
    simp only [TableNew, mkB_init rules]
    rw [heq]
    show (finishNew rules (mkB rules ∅ U2)).isOk = true
    simp only [finishNew]
    rw [hemp]
    rfl

/-- C1: `Table::new` succeeds exactly when a `start` rule exists, every rule
of the map is reachable from `start` along destination edges, every
destination tag of a reachable rule is a key of the map or the literal
`end`, and the traversal from `start` meets no cycle (so rules shared by
several acyclic paths are fine — see the witness's diamond graph); any
failure is one of `UndefinedTag`, `RuleRecursion`, `UnusedRules` by the
type of the error. -/
theorem c1_validation_iff (rules : List (String × Rule))
    (hnd : (keysOf rules).Nodup) :
    (TableNew rules).isOk = true ↔ ValidGraph rules :=
  tableNew_ok_iff rules hnd

/-- The diamond rule graph: `shared` is reachable from `start` through both
`a` and `b` — a shared sub-DAG with two distinct acyclic paths. -/
def diamond : List (String × Rule) :=
  [("start", .ifBlock .any ⟨[], "a"⟩ ⟨[], "b"⟩),
    ("a", .seqBlock ⟨[], "shared"⟩),
    ("b", .seqBlock ⟨[], "shared"⟩),
    ("shared", .seqBlock ⟨[], "end"⟩)]

/-- C1 witness: the iff instantiated on the diamond graph, whose
construction indeed succeeds. -/
theorem c1_witness :
    (keysOf diamond).Nodup
    ∧ ((TableNew diamond).isOk = true ↔ ValidGraph diamond)
    ∧ (TableNew diamond).isOk = true :=
  ⟨by decide, c1_validation_iff diamond (by decide), by rfl⟩

/-! ### Termination of the routing loop on validated tables -/

theorem routeSteps_snd (ups : Upstreams) (rules : List (String × Rule)) :
    ∀ (fuel : Nat) (s : State) (tag : String),
      (routeSteps ups rules fuel s tag).2 = routeGo ups rules fuel s tag := by
  intro fuel
  induction fuel with
  | zero => intro s tag; rfl
  | succ fuel ih =>
    intro s tag
    rw [routeSteps, routeGo]
    by_cases he : tag = "end"
    · rw [if_pos he, if_pos he]
    · rw [if_neg he, if_neg he]
      cases hl : alookup tag rules with
      | none => simp only [hl]
      | some r =>
        simp only [hl]
        cases hr : r.route ups s with
        | error e => simp only [hr]
        | ok p =>
          obtain ⟨s2, nxt⟩ := p
          simp only [hr]
          exact ih s2 nxt

theorem routeSteps_terminates (rules : List (String × Rule)) (hv : ValidGraph rules)
    (ups : Upstreams) :
    ∀ (fuel : Nat) (s : State) (tag : String) (V : Finset String),
      (tag ≠ "end" → Reach rules "start" tag) →
      V ⊆ (keysOf rules).toFinset →
      (tag ≠ "end" → ∀ v ∈ V, Relation.TransGen (Step rules) v tag) →
      ((keysOf rules).toFinset.card - V.card) < fuel →
      (routeSteps ups rules fuel s tag).2 ≠ .fuelOut
      ∧ (∀ t2, (routeSteps ups rules fuel s tag).2 ≠ .missingTag t2)
      ∧ (routeSteps ups rules fuel s tag).1.Nodup
      ∧ (∀ t2 ∈ (routeSteps ups rules fuel s tag).1,
          t2 ∉ V ∧ ∃ r, alookup t2 rules = some r)
      ∧ (routeSteps ups rules fuel s tag).1.length
          ≤ (keysOf rules).toFinset.card - V.card := by
  intro fuel
  induction fuel with
  | zero =>
    intro s tag V _ _ _ hcard
    omega
  | succ fuel ih =>
    intro s tag V h1 h2 h3 hcard
    by_cases he : tag = "end"
    · rw [routeSteps, if_pos he]
      refine ⟨fun h => LoopRes.noConfusion h, fun t2 h => LoopRes.noConfusion h,
        List.nodup_nil, by simp, by simp⟩
    · have hreach := h1 he
      obtain ⟨r, hr⟩ := reach_lookup hv hreach
      have htagV : tag ∉ V := fun hmem => hv.2.2.2 tag hreach (h3 he tag hmem)
      have htagK : tag ∈ (keysOf rules).toFinset :=
        List.mem_toFinset.mpr (alookup_some_mem hr)
      have hVlt : V.card < (keysOf rules).toFinset.card := by
        refine Finset.card_lt_card ?_
        rw [Finset.ssubset_iff_of_subset h2]
        exact ⟨tag, htagK, htagV⟩
      rw [routeSteps, if_neg he]
      simp only [hr]
      cases hrt : r.route ups s with
      | error e =>
        simp only [hrt]
        refine ⟨fun h => LoopRes.noConfusion h, fun t2 h => LoopRes.noConfusion h,
          List.nodup_singleton tag, ?_, ?_⟩
        · intro t2 ht2
          rw [List.mem_singleton.mp ht2]
          exact ⟨htagV, r, hr⟩
        · rw [List.length_singleton]
          omega
      | ok p =>
        obtain ⟨s2, nxt⟩ := p
        simp only [hrt]
        obtain ⟨hmem, _, _⟩ := rule_route_ok ups s s2 r nxt hrt
        have hV2 : insert tag V ⊆ (keysOf rules).toFinset :=
          Finset.insert_subset htagK h2
        have hcard2 : (keysOf rules).toFinset.card - (insert tag V).card < fuel := by
          rw [Finset.card_insert_of_not_mem htagV]
          omega
        have hstep : nxt ≠ "end" → Step rules tag nxt := fun hne => ⟨r, hr, hmem, hne⟩
        have h1' : nxt ≠ "end" → Reach rules "start" nxt :=
          fun hne => hreach.tail (hstep hne)
        have h3' : nxt ≠ "end" → ∀ v ∈ insert tag V,
            Relation.TransGen (Step rules) v nxt := by
          intro hne v hvmem
          rcases Finset.mem_insert.mp hvmem with hvt | hvV
          · subst hvt
            exact Relation.TransGen.single (hstep hne)
          · exact (h3 he v hvV).tail (hstep hne)
        obtain ⟨ha, hb, hc, hd, hlen⟩ := ih s2 nxt (insert tag V) h1' hV2 h3' hcard2
        refine ⟨ha, hb, ?_, ?_, ?_⟩
        · show (tag :: (routeSteps ups rules fuel s2 nxt).1).Nodup
          rw [List.nodup_cons]
          refine ⟨fun hmem2 => ?_, hc⟩
          exact (hd tag hmem2).1 (Finset.mem_insert_self tag V)
        · intro t2 ht2
          have ht2b : t2 ∈ tag :: (routeSteps ups rules fuel s2 nxt).1 := ht2
          rcases List.mem_cons.mp ht2b with he2 | hmem2
          · subst he2
            exact ⟨htagV, r, hr⟩
          · obtain ⟨hnotin, hex⟩ := hd t2 hmem2
            exact ⟨fun hmemV => hnotin (Finset.mem_insert_of_mem hmemV), hex⟩
        · show (tag :: (routeSteps ups rules fuel s2 nxt).1).length ≤ _
          rw [List.length_cons]
          rw [Finset.card_insert_of_not_mem htagV] at hlen
          omega

/-- C10: on any rules map accepted by `Table::new`, the `while` loop of
`Table::route` starting at `start` terminates within the rule count — the
visited-tag trace is duplicate-free and inside the map's keys, so it is an
acyclic path of the rule graph and its length is bounded by every longest
acyclic path; the loop never looks up a tag absent from the map, and the
instrumented trace agrees with the actual loop. -/
theorem c10_route_loop_terminates (rules : List (String × Rule))
    (hnd : (keysOf rules).Nodup) (hok : (TableNew rules).isOk = true)
    (ups : Upstreams) (s : State) (fuel : Nat)
    (hfuel : (keysOf rules).toFinset.card < fuel) :
    (routeSteps ups rules fuel s "start").2 ≠ .fuelOut
    ∧ (∀ t2, (routeSteps ups rules fuel s "start").2 ≠ .missingTag t2)
    ∧ (routeSteps ups rules fuel s "start").1.Nodup
    ∧ (∀ t2 ∈ (routeSteps ups rules fuel s "start").1, ∃ r, alookup t2 rules = some r)
    ∧ (routeSteps ups rules fuel s "start").1.length ≤ (keysOf rules).toFinset.card
    ∧ routeGo ups rules fuel s "start" = (routeSteps ups rules fuel s "start").2 := by
  have hv := (tableNew_ok_iff rules hnd).mp hok
  obtain ⟨ha, hb, hc, hd, hlen⟩ :=
    routeSteps_terminates rules hv ups fuel s "start" ∅
      (fun _ => Relation.ReflTransGen.refl) (Finset.empty_subset _)
      (fun _ v hvmem => absurd hvmem (Finset.not_mem_empty v))
      (by simpa using hfuel)
  refine ⟨ha, hb, hc, fun t2 ht2 => (hd t2 ht2).2, by simpa using hlen,
    (routeSteps_snd ups rules fuel s "start").symm⟩

/-- C10 witness: the loop on the accepted diamond graph with a trivial
upstream registry and a concrete state. -/
theorem c10_witness :
    ((keysOf diamond).Nodup ∧ (TableNew diamond).isOk = true
      ∧ (keysOf diamond).toFinset.card < 5)
    ∧ ((routeSteps ups0 diamond 5 { qctx := none, query := q0, resp := q0 } "start").2
          ≠ .fuelOut
      ∧ (∀ t2, (routeSteps ups0 diamond 5
            { qctx := none, query := q0, resp := q0 } "start").2 ≠ .missingTag t2)
      ∧ (routeSteps ups0 diamond 5 { qctx := none, query := q0, resp := q0 } "start").1.Nodup
      ∧ (∀ t2 ∈ (routeSteps ups0 diamond 5
            { qctx := none, query := q0, resp := q0 } "start").1,
          ∃ r, alookup t2 diamond = some r)
      ∧ (routeSteps ups0 diamond 5
            { qctx := none, query := q0, resp := q0 } "start").1.length
          ≤ (keysOf diamond).toFinset.card
      ∧ routeGo ups0 diamond 5 { qctx := none, query := q0, resp := q0 } "start"
          = (routeSteps ups0 diamond 5
              { qctx := none, query := q0, resp := q0 } "start").2) :=
  ⟨⟨by decide, by rfl, by decide⟩,
    c10_route_loop_terminates diamond (by decide) (by rfl) ups0
      { qctx := none, query := q0, resp := q0 } 5 (by decide)⟩

end DC
